import Mathlib

/-!
# nmap-x: parser, address classifier and dispatcher

A shallow embedding of `main.go`.  Go strings are modelled as lists of Unicode
code points (the input file is UTF-8 text); byte lengths, where the scanner
buffer matters, are the lengths of the UTF-8 encodings.

The file has two parts: the definitions (library operations used by the
program, then `isInternalIP`, `parseFile` and `main`), followed by the theorems.
-/

namespace NmapX

/-- A Go string, as its sequence of code points. -/
abbrev Str := List Char

deriving instance DecidableEq for Except

/-! ## Library operations on strings (`strings`, `fmt`) -/

/-- The separator of an input line. -/
def arrow : Str := [' ', '-', '>', ' ']

/-- The separator of the ports of a line. -/
def comma : Str := [',']

/-- The cutset handed to `strings.Trim`. -/
def brackets : Str := ['[', ']']

/-- Worker of `Split` for a non-empty separator: scans `s` from the left,
`acc` holds the current piece reversed, and `skip` counts the characters of a
separator just matched that are still to be passed over.  It cuts at the
leftmost occurrence of the separator and goes on after it, so occurrences are
found left to right and do not overlap. -/
def splitGo (sep : Str) : Str → Nat → Str → List Str
  | [], _, acc => [acc.reverse]
  | _ :: cs, skip + 1, acc => splitGo sep cs skip acc
  | c :: cs, 0, acc =>
    if sep.isPrefixOf (c :: cs) then acc.reverse :: splitGo sep cs (sep.length - 1) []
    else splitGo sep cs 0 (c :: acc)

/-- The function `strings.Split(s, sep)`: the pieces of `s` between the
occurrences of `sep`; with an empty separator, one piece per character. -/
def Split (s sep : Str) : List Str :=
  if sep = [] then s.map (fun c => [c]) else splitGo sep s 0 []

/-- The function `strings.Join(elems, sep)`. -/
def Join : List Str → Str → Str
  | [], _ => []
  | [a], _ => a
  | a :: b :: rest, sep => a ++ sep ++ Join (b :: rest) sep

/-- The function `strings.TrimRight(s, cutset)`. -/
def TrimRight (s cutset : Str) : Str :=
  (s.reverse.dropWhile (fun c => cutset.contains c)).reverse

/-- The function `strings.TrimLeft(s, cutset)`. -/
def TrimLeft (s cutset : Str) : Str :=
  s.dropWhile (fun c => cutset.contains c)

/-- The function `strings.Trim(s, cutset)`: every leading and trailing
character that belongs to `cutset` is removed. -/
def Trim (s cutset : Str) : Str :=
  TrimLeft (TrimRight s cutset) cutset

/-- The predicate `unicode.IsSpace`. -/
def isSpace (c : Char) : Bool :=
  let n := c.toNat
  n = 0x09 || n = 0x0A || n = 0x0B || n = 0x0C || n = 0x0D || n = 0x20 ||
  n = 0x85 || n = 0xA0 || n = 0x1680 || (0x2000 ≤ n && n ≤ 0x200A) ||
  n = 0x2028 || n = 0x2029 || n = 0x202F || n = 0x205F || n = 0x3000

/-- The function `strings.TrimSpace(s)`. -/
def TrimSpace (s : Str) : Str :=
  ((s.dropWhile isSpace).reverse.dropWhile isSpace).reverse

/-- The number of bytes of the UTF-8 encoding of `s`, Go's `len(s)`. -/
def byteLen (s : Str) : Nat :=
  (s.map Char.utf8Size).sum

/-- The text `fmt` prints for `%d` of a length. -/
def fmtNat (n : Nat) : Str := (Nat.repr n).toList

/-! ## Library operations on the input (`bufio.Scanner` with `ScanLines`) -/

/-- The second argument of `scanner.Buffer(buf, 1024*1024)`: the largest size
the scanner buffer may grow to. -/
def maxTokenSize : Nat := 1024 * 1024

/-- The helper `dropCR` of `bufio.ScanLines`: one trailing carriage return is
dropped. -/
def dropCR (data : Str) : Str :=
  if data.getLast? = some '\r' then data.dropLast else data

/-- Worker of `rawLines`; `acc` is the current line reversed. -/
def rawLinesGo : Str → Str → List Str
  | [], [] => []
  | [], c :: acc => [(c :: acc).reverse]
  | c :: cs, acc => if c = '\n' then acc.reverse :: rawLinesGo cs [] else rawLinesGo cs (c :: acc)

/-- The input cut after each newline, newlines removed.  Data after the last
newline is a line of its own when it is not empty. -/
def rawLines (data : Str) : List Str := rawLinesGo data []

/-- The lines of the input as `bufio.ScanLines` delimits them, whatever their
length: the raw lines, each without its trailing carriage return. -/
def fileLines (data : Str) : List Str := (rawLines data).map dropCR

/-- What the `scanner.Scan()` loop sees: the tokens delivered, in order, and
whether the scanner stopped on `bufio.ErrTooLong`.  A line is delivered when
its newline is found (or the input ends) before the buffer of `maxTokenSize`
bytes is full, that is when the raw line is shorter than `maxTokenSize`; the
first line that is not stops the scan for good. -/
def scan (data : Str) : List Str × Bool :=
  let ls := rawLines data
  let fit := ls.takeWhile (fun l => decide (byteLen l < maxTokenSize))
  (fit.map dropCR, decide (fit.length < ls.length))

/-! ## The mapping from address to ports -/

/-- The Go type `map[string][]string`, as an association list with one pair
per key.  The order of the list carries no meaning. -/
abbrev PortMap := List (Str × List Str)

/-- The assignment `m[k] = v`: the earlier value of `k`, if any, is replaced. -/
def PortMap.set (m : PortMap) (k : Str) (v : List Str) : PortMap :=
  (k, v) :: m.filter (fun e => decide (e.1 ≠ k))

/-- The lookup `m[k]`. -/
def PortMap.get? (m : PortMap) (k : Str) : Option (List Str) :=
  (m.find? (fun e => decide (e.1 = k))).map Prod.snd

/-- The keys of the mapping. -/
def PortMap.keys (m : PortMap) : List Str := m.map Prod.fst

/-! ## parseFile -/

/-- The ways `parseFile` ends the process through `log.Fatalf`. -/
inductive Fatal
  | openFile
  | invalidLine (line : Str)
  | invalidPort (port : Str)
  | readFile
  deriving DecidableEq, Repr

/-- The inner loop of `parseFile` over the ports of one line.  `err` is the
variable assigned by `os.Open`, which the loop tests at every port. -/
def collectPorts (err : Bool) : List Str → List Str → Except Fatal (List Str)
  | [], portList => .ok portList
  | portStr :: rest, portList =>
    if err then .error (.invalidPort portStr)
    else collectPorts err rest (portList ++ [portStr])

/-- The body of the scan loop of `parseFile` for one line. -/
def parseLine (err : Bool) (ipPortMap : PortMap) (line : Str) : Except Fatal PortMap :=
  let fields := Split line arrow
  if fields.length ≠ 2 then .error (.invalidLine line)
  else
    let ip := TrimSpace (fields.getD 0 [])
    let portsStr := Trim (fields.getD 1 []) brackets
    let ports := Split portsStr comma
    match collectPorts err ports [] with
    | .error e => .error e
    | .ok portList => .ok (ipPortMap.set ip portList)

/-- The scan loop of `parseFile` over the delivered tokens. -/
def parseLines (err : Bool) : List Str → PortMap → Except Fatal PortMap
  | [], ipPortMap => .ok ipPortMap
  | line :: rest, ipPortMap =>
    match parseLine err ipPortMap line with
    | .error e => .error e
    | .ok m => parseLines err rest m

/-- The function `parseFile`.  The argument is the content of the file at
`filePath`, `none` when `os.Open` fails.  Past the open check `err` is nil,
which is the value the port loop sees.  Reading an opened file does not fail
in this model other than by a line that does not fit the scanner buffer. -/
def parseFile (file : Option Str) : Except Fatal PortMap :=
  match file with
  | none => .error .openFile
  | some data =>
    let err := false
    let (tokens, tooLong) := scan data
    match parseLines err tokens [] with
    | .error e => .error e
    | .ok ipPortMap => if tooLong then .error .readFile else .ok ipPortMap

/-- The address a line carries: its part left of the separator, without the
surrounding white space. -/
def lineAddr (line : Str) : Str := TrimSpace ((Split line arrow).getD 0 [])

/-- The ports a line carries: its part right of the separator, without the
brackets at its ends, cut at the commas. -/
def linePorts (line : Str) : List Str :=
  Split (Trim ((Split line arrow).getD 1 []) brackets) comma

/-- The mapping reached from `m` by assigning, line after line, the ports of
each line to its address. -/
def assignAll (lines : List Str) (m : PortMap) : PortMap :=
  lines.foldl (fun acc l => PortMap.set acc (lineAddr l) (linePorts l)) m

/-- An input of one line, `a -> [11...1]` with `n` digits and no newline. -/
def longLine (n : Nat) : Str := 'a' :: arrow ++ '[' :: List.replicate n '1' ++ [']']

/-! ## Library operations on addresses (`net`) -/

/-- The Go type `net.IP`: a slice of bytes, 4 for the short IPv4 form and 16
otherwise. -/
abbrev IP := List Nat

/-- The twelve bytes that precede an IPv4 address in its 16-byte form. -/
def v4InV6Prefix : List Nat := [0, 0, 0, 0, 0, 0, 0, 0, 0, 0, 0xff, 0xff]

/-- The address `net.IPv6loopback`, `::1`. -/
def IPv6loopback : IP := [0, 0, 0, 0, 0, 0, 0, 0, 0, 0, 0, 0, 0, 0, 0, 1]

/-- The 16-byte form of the IPv4 address `a.b.c.d`, which is what
`net.ParseIP` returns for a dotted quad. -/
def IPv4 (a b c d : Nat) : IP := v4InV6Prefix ++ [a, b, c, d]

/-- The method `ip.To4()`; `none` is Go's nil. -/
def IP.To4 (ip : IP) : Option IP :=
  if ip.length = 4 then some ip
  else if ip.length = 16 ∧ ip.take 12 = v4InV6Prefix then some (ip.drop 12)
  else none

/-- The method `ip.IsLoopback()`. -/
def IP.IsLoopback (ip : IP) : Bool :=
  match ip.To4 with
  | some ip4 => decide (ip4.getD 0 0 = 127)
  | none => decide (ip = IPv6loopback)

/-- The Go type `net.IPNet`. -/
structure IPNet where
  IP : NmapX.IP
  Mask : List Nat
  deriving DecidableEq, Repr

/-- The helper `networkNumberAndMask` of package `net`; `none` is the pair of
nils. -/
def networkNumberAndMask (n : IPNet) : Option (NmapX.IP × List Nat) :=
  let ip? : Option NmapX.IP :=
    match n.IP.To4 with
    | some x => some x
    | none => if n.IP.length = 16 then some n.IP else none
  match ip? with
  | none => none
  | some ip =>
    if n.Mask.length = 4 then
      if ip.length = 4 then some (ip, n.Mask) else none
    else if n.Mask.length = 16 then
      if ip.length = 4 then some (ip, n.Mask.drop 12) else some (ip, n.Mask)
    else none

/-- The method `n.Contains(ip)`. -/
def IPNet.Contains (n : IPNet) (ip : NmapX.IP) : Bool :=
  let (nn, m) := (networkNumberAndMask n).getD ([], [])
  let ip := (ip.To4).getD ip
  if ip.length ≠ nn.length then false
  else (List.range ip.length).all
    (fun i => decide (nn.getD i 0 &&& m.getD i 0 = ip.getD i 0 &&& m.getD i 0))

/-- Decimal digits to a number; `none` unless `s` is a non-empty run of
digits. -/
def parseDecimal (s : Str) : Option Nat :=
  if s = [] ∨ ¬ s.all Char.isDigit then none
  else some (s.foldl (fun n c => 10 * n + (c.toNat - 48)) 0)

/-- One field of a dotted quad: decimal, at most 255, no leading zero. -/
def parseOctet (s : Str) : Option Nat :=
  match parseDecimal s with
  | none => none
  | some v => if (1 < s.length ∧ s.head? = some '0') ∨ 255 < v then none else some v

/-- A dotted quad `a.b.c.d` to its four bytes. -/
def parseIPv4 (s : Str) : Option (List Nat) :=
  match (Split s ['.']).mapM parseOctet with
  | some [a, b, c, d] => some [a, b, c, d]
  | _ => none

/-- The function `net.ParseIP` restricted to dotted quads: IPv4 text gives the
16-byte form, anything else is rejected.  The dispatcher below is stated for
an arbitrary `ParseIP`; this instance serves the concrete runs. -/
def ParseIPv4Only (s : Str) : Option IP :=
  (parseIPv4 s).map (fun q => v4InV6Prefix ++ q)

/-- The function `net.CIDRMask(ones, bits)`, byte by byte. -/
def CIDRMask (ones bits : Nat) : List Nat :=
  (List.range (bits / 8)).map
    (fun i => if 8 * (i + 1) ≤ ones then 0xff else (0xff - 0xff >>> (ones - 8 * i)) % 256)

/-- The function `net.ParseCIDR` on IPv4 networks `a.b.c.d/n`, which is all
the program hands to it: the network address is the address under the mask. -/
def ParseCIDR (s : Str) : Option IPNet :=
  match s.dropWhile (fun c => decide (c ≠ '/')) with
  | [] => none
  | _ :: mask =>
    match parseIPv4 (s.takeWhile (fun c => decide (c ≠ '/'))), parseDecimal mask with
    | some ip, some n =>
      if 32 < n then none
      else
        let m := CIDRMask n 32
        some ⟨List.zipWith (fun x y => x &&& y) ip m, m⟩
    | _, _ => none

/-! ## isInternalIP -/

/-- The function `mustParseCIDR`; the error is the panic. -/
def mustParseCIDR (s : Str) : Except Str IPNet :=
  match ParseCIDR s with
  | none => .error ("Invalid CIDR: ".toList ++ s)
  | some net => .ok net

/-- The table `privateBlocks` built at each call of `isInternalIP`. -/
def privateBlocks : Except Str (List IPNet) :=
  ["10.0.0.0/8".toList, "172.16.0.0/12".toList, "192.168.0.0/16".toList].mapM mustParseCIDR

/-- The function `isInternalIP`; the error is a panic of `mustParseCIDR`. -/
def isInternalIP (ip : IP) : Except Str Bool :=
  if ip.IsLoopback then .ok true
  else
    match privateBlocks with
    | .error e => .error e
    | .ok blocks => .ok (blocks.any (fun block => block.Contains ip))

/-! ## main -/

/-- What a run does that can be observed from outside, in order. -/
inductive Event
  | stdout (text : Str)
  | log (text : Str)
  | mkdirAll (path : Str)
  | exec (name : Str) (args : List Str)
  deriving DecidableEq, Repr

/-- How the process ends: it returns from `main`, it is ended by
`log.Fatal`, or it panics. -/
inductive Exit
  | done
  | fatal (f : Option Fatal) (text : Str)
  | panic (text : Str)
  deriving DecidableEq, Repr

/-- The command built for one entry: `exec.Command("nmap", ...)`. -/
def nmapArgs (outputFolderPath ip : Str) (ports : List Str) : List Str :=
  let port := Join ports comma
  let outputFilePath := outputFolderPath ++ "/".toList ++ ip ++ ".xml".toList
  ["-sV".toList, "-sS".toList, "-p".toList, port, "-oX".toList, outputFilePath, ip]

section dispatcher

variable (ParseIP : Str → Option IP)
variable (run : List Event → Str → List Str → Bool)
variable (outputFolderPath : Str)

/-- The body of the `range` loop of `main` for the entry `ip, ports`, started
after the events `tr`.  `run tr name args` tells whether `cmd.Run()` succeeds
for that command at that point of the run.  The result is the events so far
and, when the body ends the process, how. -/
def loopBody (tr : List Event) (ip : Str) (ports : List Str) : List Event × Option Exit :=
  match ParseIP ip with
  | none => (tr ++ [.log ("Invalid IP address: ".toList ++ ip ++ ", skipping".toList)], none)
  | some parsedIP =>
    match isInternalIP parsedIP with
    | .error e => (tr, some (.panic e))
    | .ok true => (tr ++ [.stdout ("Skipping internal IP: ".toList ++ ip ++ "\n".toList)], none)
    | .ok false =>
      let tr := tr ++ [.stdout (ip ++ "\n".toList)]
      let port := Join ports comma
      if 1000 < ports.length then
        (tr ++ [.stdout ("Ports length ".toList ++ fmtNat ports.length ++
          " > 1000, skipping... \n".toList)], none)
      else
        let tr := tr ++ [.stdout (port ++ "\n".toList)]
        let outputFilePath := outputFolderPath ++ "/".toList ++ ip ++ ".xml".toList
        let tr := tr ++ [.stdout ("输出文件 outputFilePath: ".toList ++ outputFilePath)]
        let args := ["-sV".toList, "-sS".toList, "-p".toList, port, "-oX".toList, outputFilePath, ip]
        let ok := run tr "nmap".toList args
        let tr := tr ++ [.exec "nmap".toList args]
        if ok then (tr, none)
        else (tr, some (.fatal none
          ("Error running nmap for ".toList ++ ip ++ ":".toList ++ port)))

/-- The `range` loop of `main` over the entries in the order they are
visited. -/
def rangeLoop : List (Str × List Str) → List Event → List Event × Option Exit
  | [], tr => (tr, none)
  | (ip, ports) :: rest, tr =>
    match loopBody ParseIP run outputFolderPath tr ip ports with
    | (tr, none) => rangeLoop rest tr
    | (tr, some x) => (tr, some x)

/-- The function `main`.  `inputFilePath` and `outputFolderPath` are the two
flags, `mkdirOk` tells whether `os.MkdirAll` succeeds, `file` is the content
of the input file (`none` when it cannot be opened) and `order` is the order
in which `range` visits the mapping. -/
def main (inputFilePath : Str) (mkdirOk : Bool) (file : Option Str)
    (order : PortMap → List (Str × List Str)) : List Event × Exit :=
  if inputFilePath = [] ∨ outputFolderPath = [] then
    ([], .fatal none "Both input and output file paths are required".toList)
  else
    let tr := [Event.mkdirAll outputFolderPath]
    if ¬ mkdirOk then (tr, .fatal none "Failed to create output folder".toList)
    else
      match parseFile file with
      | .error f => (tr, .fatal (some f) [])
      | .ok ipPortMap =>
        match rangeLoop ParseIP run outputFolderPath (order ipPortMap) tr with
        | (tr, some x) => (tr, x)
        | (tr, none) =>
          (tr ++ [.stdout "Scanning completed. Results appended to the output folder.\n".toList],
            .done)

end dispatcher

/-- The commands run, in order: the `exec` events of a trace. -/
def invocations (tr : List Event) : List (Str × List Str) :=
  tr.filterMap (fun e => match e with
    | .exec name args => some (name, args)
    | _ => none)

/-- The command an entry is scanned with. -/
def nmapCmd (outputFolderPath : Str) (e : Str × List Str) : Str × List Str :=
  ("nmap".toList, nmapArgs outputFolderPath e.1 e.2)

/-- An entry is eligible when its address parses as an IP, the address is not
internal and it has at most 1000 ports. -/
def eligible (ParseIP : Str → Option IP) (e : Str × List Str) : Bool :=
  match ParseIP e.1 with
  | none => false
  | some parsedIP => decide (isInternalIP parsedIP = .ok false) && decide (e.2.length ≤ 1000)

/-- How many times a command occurs in a list of commands. -/
def times (c : Str × List Str) (cmds : List (Str × List Str)) : Nat :=
  (cmds.filter (fun x => decide (x = c))).length

/-- Spec side: `t` is `s` with every leading and every trailing `[` and `]`
character removed: `s` is `t` between two runs of brackets, and `t` neither
starts nor ends with a bracket. -/
def BracketStripped (s t : Str) : Prop :=
  ∃ pre suf, s = pre ++ t ++ suf ∧
    (∀ c ∈ pre, c = '[' ∨ c = ']') ∧ (∀ c ∈ suf, c = '[' ∨ c = ']') ∧
    (∀ c, t.head? = some c → c ≠ '[' ∧ c ≠ ']') ∧
    (∀ c, t.getLast? = some c → c ≠ '[' ∧ c ≠ ']')

/-! ## Facts about the string operations -/

theorem arrow_ne_nil : arrow ≠ [] := by simp [arrow]

theorem comma_ne_nil : comma ≠ [] := by simp [comma]

theorem splitGo_succ (sep : Str) (c : Char) (cs : Str) (k : Nat) (acc : Str) :
    splitGo sep (c :: cs) (k + 1) acc = splitGo sep cs k acc := rfl

theorem splitGo_zero (sep : Str) (c : Char) (cs : Str) (acc : Str) :
    splitGo sep (c :: cs) 0 acc =
      if sep.isPrefixOf (c :: cs) then acc.reverse :: splitGo sep cs (sep.length - 1) []
      else splitGo sep cs 0 (c :: acc) := rfl

theorem splitGo_ne_nil (sep : Str) (s : Str) (k : Nat) (acc : Str) : splitGo sep s k acc ≠ [] := by
  induction s generalizing k acc with
  | nil => simp [splitGo]
  | cons c cs ih =>
    cases k with
    | zero =>
      unfold splitGo
      split
      · simp
      · exact ih _ _
    | succ k => unfold splitGo; exact ih _ _

theorem Join_cons (a : Str) (rest : List Str) (sep : Str) (h : rest ≠ []) :
    Join (a :: rest) sep = a ++ sep ++ Join rest sep := by
  cases rest with
  | nil => exact absurd rfl h
  | cons b r => rfl

/-- Joining the pieces that `splitGo` produces gives back what it scanned. -/
theorem Join_splitGo (sep : Str) (hsep : sep ≠ []) (s : Str) (k : Nat) (acc : Str) :
    Join (splitGo sep s k acc) sep = acc.reverse ++ s.drop k := by
  induction s generalizing k acc with
  | nil => simp [splitGo, Join]
  | cons c cs ih =>
    cases k with
    | succ k => unfold splitGo; rw [ih]; simp
    | zero =>
      unfold splitGo
      split
      · rename_i hp
        rw [Join_cons _ _ _ (splitGo_ne_nil _ _ _ _), ih]
        cases sep with
        | nil => exact absurd rfl hsep
        | cons x xs =>
          obtain ⟨t, ht⟩ := List.isPrefixOf_iff_prefix.mp hp
          simp only [List.cons_append, List.cons.injEq] at ht
          obtain ⟨hx, hcs⟩ := ht
          subst hx
          subst hcs
          simp
      · rw [ih]; simp

/-- Joining undoes splitting, for every non-empty separator. -/
theorem Join_Split (s sep : Str) (hsep : sep ≠ []) : Join (Split s sep) sep = s := by
  simp [Split, hsep, Join_splitGo]

/-- While it passes over a matched separator `splitGo` emits nothing. -/
theorem splitGo_skip (sep a s acc : Str) :
    splitGo sep (a ++ s) a.length acc = splitGo sep s 0 acc := by
  induction a with
  | nil => simp
  | cons x xs ih => simp only [List.cons_append, List.length_cons]; rw [splitGo_succ]; exact ih

/-- A string without the separator is a single piece. -/
theorem splitGo_noOcc (sep s : Str) (h : ¬ sep <:+: s) (acc : Str) :
    splitGo sep s 0 acc = [acc.reverse ++ s] := by
  induction s generalizing acc with
  | nil => simp [splitGo]
  | cons c cs ih =>
    rw [splitGo_zero]
    have hp : ¬ sep.isPrefixOf (c :: cs) = true := by
      intro hp
      exact h (List.isPrefixOf_iff_prefix.mp hp).isInfix
    rw [if_neg hp, ih (fun hi => h (hi.trans (List.suffix_cons c cs).isInfix))]
    simp

/-- The first cut of `splitGo` is at the leftmost occurrence of the separator. -/
theorem splitGo_first (sep : Str) (hsep : sep ≠ []) (A R : Str)
    (h : ∀ A1 A2, A = A1 ++ A2 → A2 ≠ [] → ¬ sep <+: A2 ++ sep ++ R) (acc : Str) :
    splitGo sep (A ++ sep ++ R) 0 acc = (acc.reverse ++ A) :: splitGo sep R 0 [] := by
  induction A generalizing acc with
  | nil =>
    cases sep with
    | nil => exact absurd rfl hsep
    | cons x xs =>
      simp only [List.nil_append, List.cons_append]
      rw [splitGo_zero]
      have hp : (x :: xs).isPrefixOf (x :: (xs ++ R)) = true :=
        List.isPrefixOf_iff_prefix.mpr ⟨R, by simp⟩
      rw [if_pos hp]
      simp only [List.length_cons, Nat.add_sub_cancel, List.append_nil]
      rw [splitGo_skip]
  | cons c cs ih =>
    simp only [List.cons_append]
    rw [splitGo_zero]
    have hp : ¬ sep.isPrefixOf (c :: (cs ++ sep ++ R)) = true := by
      intro hp
      exact h [] (c :: cs) rfl (by simp) (by simpa using List.isPrefixOf_iff_prefix.mp hp)
    rw [if_neg hp, ih (fun A1 A2 hA hne => h (c :: A1) A2 (by simp [hA]) hne)]
    simp

theorem infix_singleton_iff (c : Char) (s : Str) : [c] <:+: s ↔ c ∈ s := by
  constructor
  · rintro ⟨u, v, rfl⟩; simp
  · intro h
    obtain ⟨u, v, rfl⟩ := List.append_of_mem h
    exact ⟨u, v, by simp⟩

/-- Splitting on `,` undoes joining with `,` when no element holds a comma. -/
theorem splitGo_Join_comma (ps : List Str) (hne : ps ≠ []) (h : ∀ p ∈ ps, ',' ∉ p) :
    splitGo comma (Join ps comma) 0 [] = ps := by
  induction ps with
  | nil => exact absurd rfl hne
  | cons p rest ih =>
    have hp : ',' ∉ p := h p (by simp)
    cases rest with
    | nil =>
      rw [Join, splitGo_noOcc]
      · simp
      · rw [comma, infix_singleton_iff]; exact hp
    | cons q r =>
      rw [Join_cons _ _ _ (by simp), splitGo_first comma comma_ne_nil]
      · rw [ih (by simp) (fun x hx => h x (by simp [hx]))]; simp
      · intro A1 A2 hA hA2 hpre
        cases A2 with
        | nil => exact hA2 rfl
        | cons a A2 =>
          obtain ⟨t, ht⟩ := hpre
          simp only [comma, List.cons_append, List.singleton_append, List.cons.injEq] at ht
          apply hp
          rw [hA, ← ht.1]
          simp

theorem Split_Join_comma (ps : List Str) (hne : ps ≠ []) (h : ∀ p ∈ ps, ',' ∉ p) :
    Split (Join ps comma) comma = ps := by
  simp [Split, comma_ne_nil, splitGo_Join_comma ps hne h]

theorem Join_head (ps : List Str) (c : Char) (h : (Join ps comma).head? = some c) :
    c = ',' ∨ ∃ p1, ps.head? = some p1 ∧ p1.head? = some c := by
  cases ps with
  | nil => simp [Join] at h
  | cons p rest =>
    cases rest with
    | nil => right; exact ⟨p, rfl, by simpa [Join] using h⟩
    | cons q r =>
      rw [Join_cons _ _ _ (by simp)] at h
      cases p with
      | nil => left; simpa [comma] using h.symm
      | cons x xs => right; exact ⟨x :: xs, rfl, by simpa using h⟩

theorem Join_getLast (ps : List Str) (c : Char) (h : (Join ps comma).getLast? = some c) :
    c = ',' ∨ ∃ pn, ps.getLast? = some pn ∧ pn.getLast? = some c := by
  induction ps with
  | nil => simp [Join] at h
  | cons p rest ih =>
    cases rest with
    | nil => right; exact ⟨p, rfl, by simpa [Join] using h⟩
    | cons q r =>
      rw [Join_cons _ _ _ (by simp)] at h
      by_cases hJ : Join (q :: r) comma = []
      · left
        rw [hJ] at h
        simpa [comma] using h.symm
      · rw [List.getLast?_append_of_ne_nil _ hJ] at h
        rcases ih h with h1 | ⟨pn, h1, h2⟩
        · exact Or.inl h1
        · right
          refine ⟨pn, ?_, h2⟩
          rw [List.getLast?_cons_cons]; exact h1

theorem dropWhile_of_head (p : Char → Bool) (s : Str)
    (h : ∀ c, s.head? = some c → p c = false) : s.dropWhile p = s := by
  cases s with
  | nil => rfl
  | cons x xs => simp [List.dropWhile, h x rfl]

theorem mem_brackets (c : Char) : brackets.contains c = true ↔ c = '[' ∨ c = ']' := by
  simp [brackets]

/-- Brackets around a text that neither starts nor ends with one are exactly
what `Trim` removes. -/
theorem Trim_wrap (J : Str)
    (h1 : ∀ c, J.head? = some c → c ≠ '[' ∧ c ≠ ']')
    (h2 : ∀ c, J.getLast? = some c → c ≠ '[' ∧ c ≠ ']') :
    Trim ('[' :: J ++ [']']) brackets = J := by
  have hb : ∀ c, (c ≠ '[' ∧ c ≠ ']') → brackets.contains c = false := by
    intro c hc
    cases hcb : brackets.contains c with
    | false => rfl
    | true => rcases (mem_brackets c).mp hcb with h | h
              · exact absurd h hc.1
              · exact absurd h hc.2
  unfold Trim TrimRight TrimLeft
  by_cases hJ : J = []
  · subst hJ; simp [List.dropWhile, brackets]
  · have hr : (('[' :: J ++ [']']).reverse.dropWhile (fun c => brackets.contains c)) =
        J.reverse ++ ['['] := by
      simp only [List.reverse_append, List.reverse_cons, List.reverse_nil, List.nil_append,
        List.singleton_append, List.cons_append]
      rw [List.dropWhile_cons_of_pos (by simp [brackets])]
      apply dropWhile_of_head
      intro c hc
      apply hb
      apply h2
      cases hJr : J.reverse with
      | nil => simp at hJr; exact absurd hJr hJ
      | cons y ys =>
        rw [hJr] at hc
        simp at hc
        rw [← List.head?_reverse, hJr]
        simp [hc]
    rw [hr]
    simp only [List.reverse_append, List.reverse_cons, List.reverse_nil, List.nil_append,
      List.singleton_append, List.reverse_reverse]
    rw [List.dropWhile_cons_of_pos (by simp [brackets])]
    exact dropWhile_of_head _ _ (fun c hc => hb c (h1 c hc))

theorem TrimSpace_id (A : Str)
    (h1 : ∀ c, A.head? = some c → isSpace c = false)
    (h2 : ∀ c, A.getLast? = some c → isSpace c = false) : TrimSpace A = A := by
  unfold TrimSpace
  rw [dropWhile_of_head _ _ h1, dropWhile_of_head, List.reverse_reverse]
  intro c hc
  rw [List.head?_reverse] at hc
  exact h2 c hc

theorem getLast?_dropWhile (p : Char → Bool) (u : Str) (c : Char)
    (h : (u.dropWhile p).getLast? = some c) : u.getLast? = some c := by
  have hs : u.dropWhile p <:+ u := List.dropWhile_suffix p
  obtain ⟨v, hv⟩ := hs
  have hne : u.dropWhile p ≠ [] := by
    intro h0; rw [h0] at h; simp at h
  rw [← hv, List.getLast?_append_of_ne_nil _ hne]
  exact h

/-- What `Trim` returns: the text left when a run of cutset characters is
taken off each end, and that neither starts nor ends with a cutset character. -/
theorem Trim_spec (s cut : Str) :
    ∃ pre suf, s = pre ++ Trim s cut ++ suf ∧
      (∀ c ∈ pre, c ∈ cut) ∧ (∀ c ∈ suf, c ∈ cut) ∧
      (∀ c, (Trim s cut).head? = some c → c ∉ cut) ∧
      (∀ c, (Trim s cut).getLast? = some c → c ∉ cut) := by
  let p : Char → Bool := fun c => cut.contains c
  have hp : ∀ c, p c = true ↔ c ∈ cut := by intro c; simp [p]
  refine ⟨(TrimRight s cut).takeWhile p, (s.reverse.takeWhile p).reverse, ?_, ?_, ?_, ?_, ?_⟩
  · have h1 : (TrimRight s cut).takeWhile p ++ Trim s cut = TrimRight s cut :=
      List.takeWhile_append_dropWhile p (TrimRight s cut)
    rw [h1]
    unfold TrimRight
    rw [← List.reverse_append, List.takeWhile_append_dropWhile, List.reverse_reverse]
  · intro c hc
    exact (hp c).mp (List.mem_takeWhile_imp hc)
  · intro c hc
    exact (hp c).mp (List.mem_takeWhile_imp (List.mem_reverse.mp hc))
  · intro c hc hcut
    have := List.head?_dropWhile_not p (TrimRight s cut)
    unfold Trim TrimLeft at hc
    rw [hc] at this
    simp only at this
    rw [(hp c).mpr hcut] at this
    exact Bool.noConfusion this
  · intro c hc hcut
    have h1 : (TrimRight s cut).getLast? = some c := getLast?_dropWhile p _ c hc
    unfold TrimRight at h1
    rw [List.getLast?_reverse] at h1
    have := List.head?_dropWhile_not p s.reverse
    rw [h1] at this
    simp only at this
    rw [(hp c).mpr hcut] at this
    exact Bool.noConfusion this

theorem Split_length_of_noOcc (s : Str) (h : ¬ arrow <:+: s) : (Split s arrow).length = 1 := by
  unfold Split
  rw [if_neg arrow_ne_nil, splitGo_noOcc arrow s h]
  simp

/-! ## How many pieces a split has -/

theorem splitGo_drop (sep s : Str) (k : Nat) (acc : Str) :
    splitGo sep s k acc = splitGo sep (s.drop k) 0 acc := by
  induction s generalizing k with
  | nil => simp [splitGo]
  | cons c cs ih =>
    cases k with
    | zero => rfl
    | succ k => rw [splitGo_succ, ih k]; rfl

/-- A text that holds the separator splits into two pieces at least. -/
theorem splitGo_length_of_infix (sep s : Str) (hsep : sep ≠ []) (h : sep <:+: s) (acc : Str) :
    2 ≤ (splitGo sep s 0 acc).length := by
  induction s generalizing acc with
  | nil => exact absurd (List.eq_nil_of_infix_nil h) hsep
  | cons c cs ih =>
    rw [splitGo_zero]
    by_cases hp : sep.isPrefixOf (c :: cs) = true
    · rw [if_pos hp, List.length_cons]
      have := List.length_pos.mpr (splitGo_ne_nil sep cs (sep.length - 1) [])
      omega
    · rw [if_neg hp]
      rcases List.infix_cons_iff.mp h with h1 | h1
      · exact absurd (List.isPrefixOf_iff_prefix.mpr h1) hp
      · exact ih h1 _

/-- A text that holds the separator twice, the second time after the end of
the first, splits into three pieces at least. -/
theorem splitGo_length_of_two (sep : Str) (hsep : sep ≠ []) (A B C : Str) (acc : Str) :
    3 ≤ (splitGo sep (A ++ sep ++ B ++ sep ++ C) 0 acc).length := by
  generalize hs : A ++ sep ++ B ++ sep ++ C = s
  induction s generalizing A acc with
  | nil =>
    exfalso
    apply hsep
    have : (A ++ sep ++ B ++ sep ++ C).length = 0 := by rw [hs]; rfl
    simp only [List.length_append] at this
    exact List.length_eq_zero.mp (by omega)
  | cons c cs ih =>
    rw [splitGo_zero]
    by_cases hp : sep.isPrefixOf (c :: cs) = true
    · rw [if_pos hp, List.length_cons, splitGo_drop]
      have hin : sep <:+: cs.drop (sep.length - 1) := by
        have hd : cs.drop (sep.length - 1) = (c :: cs).drop sep.length := by
          cases sep with
          | nil => exact absurd rfl hsep
          | cons x xs => simp
        rw [hd, ← hs]
        have e : A ++ sep ++ B ++ sep ++ C = (A ++ sep) ++ (B ++ sep ++ C) := by simp
        rw [e, List.drop_append_of_le_length (by simp)]
        exact ⟨(A ++ sep).drop sep.length ++ B, C, by simp⟩
      have := splitGo_length_of_infix sep _ hsep hin []
      omega
    · rw [if_neg hp]
      cases A with
      | nil =>
        exfalso
        apply hp
        rw [← hs]
        exact List.isPrefixOf_iff_prefix.mpr ⟨B ++ sep ++ C, by simp⟩
      | cons a A' =>
        simp only [List.cons_append, List.cons.injEq] at hs
        exact ih A' _ hs.2

/-- The pieces of a split are two exactly when the separator occurs, and does
not occur a second time after the end of an occurrence. -/
theorem Split_length_ne_two_iff (l sep : Str) (hsep : sep ≠ []) :
    (Split l sep).length ≠ 2 ↔
      (¬ sep <:+: l) ∨ ∃ A B C, l = A ++ sep ++ B ++ sep ++ C := by
  have hS : Split l sep = splitGo sep l 0 [] := by simp [Split, hsep]
  constructor
  · intro h
    by_cases hi : sep <:+: l
    · right
      have h2 := splitGo_length_of_infix sep l hsep hi []
      rw [← hS] at h2
      have hj := Join_Split l sep hsep
      rcases hsp : Split l sep with _ | ⟨p1, _ | ⟨p2, _ | ⟨p3, rest⟩⟩⟩
      · rw [hsp] at h2; simp at h2
      · rw [hsp] at h2; simp at h2
      · rw [hsp] at h; simp at h
      · rw [hsp, Join_cons _ _ _ (by simp), Join_cons _ _ _ (by simp)] at hj
        exact ⟨p1, p2, Join (p3 :: rest) sep, by rw [← hj]; simp⟩
    · exact Or.inl hi
  · rintro (h | ⟨A, B, C, rfl⟩)
    · rw [hS, splitGo_noOcc sep l h]
      simp
    · have := splitGo_length_of_two sep hsep A B C []
      rw [hS]
      omega

/-! ## The text between the brackets -/

theorem contains_brackets_iff (c : Char) : brackets.contains c = true ↔ c = '[' ∨ c = ']' := by
  simp [brackets]

theorem dropWhile_all (p : Char → Bool) (a b : Str) (h : ∀ c ∈ a, p c = true) :
    (a ++ b).dropWhile p = b.dropWhile p := by
  induction a with
  | nil => rfl
  | cons x xs ih =>
    rw [List.cons_append, List.dropWhile_cons_of_pos (h x (by simp))]
    exact ih (fun c hc => h c (by simp [hc]))

theorem dropWhile_eq_nil_of_all (p : Char → Bool) (a : Str) (h : ∀ c ∈ a, p c = true) :
    a.dropWhile p = [] := by
  have := dropWhile_all p a [] h
  simpa using this

/-- The function `Trim` with the brackets as cutset returns the
bracket-stripped text. -/
theorem BracketStripped_Trim (s : Str) : BracketStripped s (Trim s brackets) := by
  have hb : ∀ c : Char, c ∈ brackets ↔ c = '[' ∨ c = ']' := by
    intro c; simp [brackets]
  obtain ⟨pre, suf, h1, h2, h3, h4, h5⟩ := Trim_spec s brackets
  refine ⟨pre, suf, h1, fun c hc => (hb c).mp (h2 c hc), fun c hc => (hb c).mp (h3 c hc), ?_, ?_⟩
  · intro c hc
    have := h4 c hc
    rw [hb] at this
    exact not_or.mp this
  · intro c hc
    have := h5 c hc
    rw [hb] at this
    exact not_or.mp this

/-- The bracket-stripped text is unique: it is what `Trim` returns. -/
theorem BracketStripped_unique (s t : Str) (h : BracketStripped s t) : Trim s brackets = t := by
  obtain ⟨pre, suf, hs, hpre, hsuf, hhead, hlast⟩ := h
  have hpos : ∀ c : Char, (c = '[' ∨ c = ']') → brackets.contains c = true :=
    fun c hc => (contains_brackets_iff c).mpr hc
  have hneg : ∀ c : Char, (c ≠ '[' ∧ c ≠ ']') → brackets.contains c = false := by
    intro c hc
    cases hcb : brackets.contains c with
    | false => rfl
    | true =>
      rcases (contains_brackets_iff c).mp hcb with h | h
      · exact absurd h hc.1
      · exact absurd h hc.2
  subst hs
  unfold Trim TrimRight TrimLeft
  have hrev : (pre ++ t ++ suf).reverse = suf.reverse ++ (t.reverse ++ pre.reverse) := by simp
  rw [hrev, dropWhile_all _ _ _ (fun c hc => hpos c (hsuf c (List.mem_reverse.mp hc)))]
  by_cases ht : t = []
  · subst ht
    rw [List.reverse_nil, List.nil_append,
      dropWhile_eq_nil_of_all _ _ (fun c hc => hpos c (hpre c (List.mem_reverse.mp hc)))]
    rfl
  · have hstop : (t.reverse ++ pre.reverse).dropWhile (fun c => brackets.contains c) =
        t.reverse ++ pre.reverse := by
      apply dropWhile_of_head
      intro c hc
      apply hneg
      apply hlast
      have hne : t.reverse ≠ [] := by simpa using ht
      rw [List.head?_append_of_ne_nil _ hne, List.head?_reverse] at hc
      exact hc
    rw [hstop]
    have hr : (t.reverse ++ pre.reverse).reverse = pre ++ t := by simp
    rw [hr, dropWhile_all _ _ _ (fun c hc => hpos c (hpre c hc))]
    exact dropWhile_of_head _ _ (fun c hc => hneg c (hhead c hc))

/-! ## Facts about the scanner -/

theorem scan_of_fit (data : Str) (h : ∀ l ∈ rawLines data, byteLen l < maxTokenSize) :
    scan data = (fileLines data, false) := by
  have ht : (rawLines data).takeWhile (fun l => decide (byteLen l < maxTokenSize)) = rawLines data :=
    List.takeWhile_eq_self_iff.mpr (fun l hl => by simpa using h l hl)
  simp [scan, ht, fileLines]

theorem fit_of_scan (data : Str) (h : (scan data).2 = false) :
    ∀ l ∈ rawLines data, byteLen l < maxTokenSize := by
  have hlen : ((rawLines data).takeWhile (fun l => decide (byteLen l < maxTokenSize))).length =
      (rawLines data).length := by
    have hle := (List.takeWhile_prefix (fun l => decide (byteLen l < maxTokenSize))
      (l := rawLines data)).length_le
    simp only [scan, decide_eq_false_iff_not, not_lt] at h
    omega
  have ht := List.IsPrefix.eq_of_length
    (List.takeWhile_prefix (fun l => decide (byteLen l < maxTokenSize)) (l := rawLines data)) hlen
  intro l hl
  have := List.takeWhile_eq_self_iff.mp ht l hl
  simpa using this

/-! ## Facts about the mapping -/

theorem get?_set_self (m : PortMap) (k : Str) (v : List Str) : (m.set k v).get? k = some v := by
  simp [PortMap.set, PortMap.get?]

theorem get?_set_other (m : PortMap) (k k' : Str) (v : List Str) (h : k' ≠ k) :
    (m.set k v).get? k' = m.get? k' := by
  unfold PortMap.set PortMap.get?
  rw [List.find?_cons_of_neg _ (by simpa using fun hk => h hk.symm)]
  congr 1
  induction m with
  | nil => rfl
  | cons e m ih =>
    by_cases he : e.1 = k
    · rw [List.filter_cons_of_neg (by simpa using he), ih,
        List.find?_cons_of_neg _ (by simpa using fun hk : e.1 = k' => h (hk ▸ he))]
    · rw [List.filter_cons_of_pos (by simpa using he)]
      by_cases hk : e.1 = k'
      · rw [List.find?_cons_of_pos _ (by simpa using hk), List.find?_cons_of_pos _ (by simpa using hk)]
      · rw [List.find?_cons_of_neg _ (by simpa using hk), List.find?_cons_of_neg _ (by simpa using hk), ih]

theorem mem_keys_set (m : PortMap) (k : Str) (v : List Str) (a : Str) :
    a ∈ (m.set k v).keys ↔ a = k ∨ a ∈ m.keys := by
  unfold PortMap.set PortMap.keys
  rw [List.map_cons, List.mem_cons]
  constructor
  · rintro (h | h)
    · exact Or.inl h
    · obtain ⟨e, he, rfl⟩ := List.mem_map.mp h
      exact Or.inr (List.mem_map.mpr ⟨e, (List.mem_filter.mp he).1, rfl⟩)
  · rintro (h | h)
    · exact Or.inl h
    · by_cases hak : a = k
      · exact Or.inl hak
      · obtain ⟨e, he, rfl⟩ := List.mem_map.mp h
        exact Or.inr (List.mem_map.mpr ⟨e, List.mem_filter.mpr ⟨he, by simpa using hak⟩, rfl⟩)

theorem nodup_keys_set (m : PortMap) (k : Str) (v : List Str) (h : m.keys.Nodup) :
    (m.set k v).keys.Nodup := by
  simp only [PortMap.set, PortMap.keys, List.map_cons, List.nodup_cons]
  constructor
  · simp
  · exact (List.Nodup.sublist (List.Sublist.map _ (List.filter_sublist _)) h)

theorem get?_eq_some_of_mem (m : PortMap) (h : m.keys.Nodup) (k : Str) (v : List Str)
    (hm : (k, v) ∈ m) : m.get? k = some v := by
  induction m with
  | nil => simp at hm
  | cons e m ih =>
    simp only [PortMap.keys, List.map_cons, List.nodup_cons] at h
    rcases List.mem_cons.mp hm with he | hm'
    · subst he; simp [PortMap.get?]
    · have hne : e.1 ≠ k := by
        intro hek
        apply h.1
        rw [hek]
        exact List.mem_map.mpr ⟨(k, v), hm', rfl⟩
      unfold PortMap.get?
      rw [List.find?_cons_of_neg _ (by simpa using hne)]
      exact ih h.2 hm'

/-! ## Facts about the scan loop of `parseFile` -/

theorem collectPorts_false (ports acc : List Str) :
    collectPorts false ports acc = .ok (acc ++ ports) := by
  induction ports generalizing acc with
  | nil => simp [collectPorts]
  | cons p rest ih => simp [collectPorts, ih]

theorem collectPorts_ne_invalidPort_of_ok (ports acc : List Str) (p : Str) :
    collectPorts false ports acc ≠ .error (.invalidPort p) := by
  rw [collectPorts_false]; simp

theorem parseLine_false (m : PortMap) (line : Str) :
    parseLine false m line =
      if (Split line arrow).length ≠ 2 then .error (.invalidLine line)
      else .ok (m.set (lineAddr line) (linePorts line)) := by
  unfold parseLine
  simp only [collectPorts_false, List.nil_append]
  rfl

/-- The mapping the loop builds from well-formed lines. -/
theorem parseLines_ok (lines : List Str) (m : PortMap)
    (h : ∀ l ∈ lines, (Split l arrow).length = 2) :
    parseLines false lines m =
      .ok (assignAll lines m) := by
  induction lines generalizing m with
  | nil => rfl
  | cons l rest ih =>
    unfold parseLines
    rw [parseLine_false, if_neg (by simpa using h l (by simp))]
    exact ih _ (fun x hx => h x (by simp [hx]))

/-- The loop stops at the first line that does not split in two. -/
theorem parseLines_bad (lines : List Str) (m : PortMap)
    (h : ∃ l ∈ lines, (Split l arrow).length ≠ 2) :
    ∃ l ∈ lines, (Split l arrow).length ≠ 2 ∧ parseLines false lines m = .error (.invalidLine l) := by
  induction lines generalizing m with
  | nil => simp at h
  | cons l rest ih =>
    unfold parseLines
    rw [parseLine_false]
    by_cases hl : (Split l arrow).length = 2
    · rw [if_neg (by simpa using hl)]
      obtain ⟨b, hb, hb2⟩ := h
      have hb' : b ∈ rest := by
        rcases List.mem_cons.mp hb with rfl | hb'
        · exact absurd hl hb2
        · exact hb'
      obtain ⟨x, hx, hx2, hx3⟩ := ih _ ⟨b, hb', hb2⟩
      exact ⟨x, by simp [hx], hx2, hx3⟩
    · rw [if_pos hl]
      exact ⟨l, by simp, hl, rfl⟩

theorem parseLines_cases (lines : List Str) (m : PortMap) :
    ((∀ l ∈ lines, (Split l arrow).length = 2) ∧
      parseLines false lines m =
        .ok (assignAll lines m)) ∨
    (∃ l ∈ lines, (Split l arrow).length ≠ 2 ∧
      parseLines false lines m = .error (.invalidLine l)) := by
  by_cases h : ∀ l ∈ lines, (Split l arrow).length = 2
  · exact Or.inl ⟨h, parseLines_ok lines m h⟩
  · right
    push_neg at h
    exact parseLines_bad lines m h

theorem parseFile_some (data : Str) :
    parseFile (some data) =
      match parseLines false (scan data).1 [] with
      | .error e => .error e
      | .ok m => if (scan data).2 then .error .readFile else .ok m := rfl

/-- When the parse succeeds every line was delivered and split in two, and the
mapping is the one built line by line. -/
theorem parseFile_ok (data : Str) (m : PortMap) (h : parseFile (some data) = .ok m) :
    (∀ l ∈ rawLines data, byteLen l < maxTokenSize) ∧
    (∀ l ∈ fileLines data, (Split l arrow).length = 2) ∧
    m = assignAll (fileLines data) [] := by
  rw [parseFile_some] at h
  rcases parseLines_cases (scan data).1 [] with ⟨hwf, hok⟩ | ⟨l, _, _, hbad⟩
  · rw [hok] at h
    simp only at h
    by_cases ht : (scan data).2 = true
    · rw [if_pos ht] at h; cases h
    · rw [if_neg ht] at h
      have hfit := fit_of_scan data (by simpa using ht)
      have hs := scan_of_fit data hfit
      rw [hs] at hwf h
      simp only at hwf h
      exact ⟨hfit, hwf, by cases h; rfl⟩
  · rw [hbad] at h; cases h

/-- A file whose lines all fit the buffer and split in two is parsed. -/
theorem parseFile_of_wf (data : Str)
    (hfit : ∀ l ∈ rawLines data, byteLen l < maxTokenSize)
    (hwf : ∀ l ∈ fileLines data, (Split l arrow).length = 2) :
    parseFile (some data) =
      .ok (assignAll (fileLines data) []) := by
  rw [parseFile_some, scan_of_fit data hfit]
  simp only
  rw [parseLines_ok _ _ hwf]
  simp

theorem assignAll_cons (l : Str) (rest : List Str) (m : PortMap) :
    assignAll (l :: rest) m = assignAll rest (PortMap.set m (lineAddr l) (linePorts l)) := rfl

theorem assignAll_append (pre post : List Str) (m : PortMap) :
    assignAll (pre ++ post) m = assignAll post (assignAll pre m) := by
  simp [assignAll, List.foldl_append]

/-- Lines that carry other addresses leave the entry of `a` as it is. -/
theorem get?_assignAll_other (lines : List Str) (m : PortMap) (a : Str)
    (h : ∀ l ∈ lines, lineAddr l ≠ a) : (assignAll lines m).get? a = m.get? a := by
  induction lines generalizing m with
  | nil => rfl
  | cons l rest ih =>
    rw [assignAll_cons, ih _ (fun x hx => h x (by simp [hx])),
      get?_set_other _ _ _ _ (fun e => h l (by simp) e.symm)]

/-- The last line that carries an address decides its entry. -/
theorem get?_assignAll_last (pre post : List Str) (l : Str) (m : PortMap)
    (h : ∀ x ∈ post, lineAddr x ≠ lineAddr l) :
    (assignAll (pre ++ l :: post) m).get? (lineAddr l) = some (linePorts l) := by
  rw [assignAll_append, assignAll_cons, get?_assignAll_other _ _ _ h, get?_set_self]

theorem mem_keys_assignAll (lines : List Str) (m : PortMap) (a : Str) :
    a ∈ (assignAll lines m).keys ↔ a ∈ m.keys ∨ ∃ l ∈ lines, lineAddr l = a := by
  induction lines generalizing m with
  | nil => simp [assignAll]
  | cons l rest ih =>
    rw [assignAll_cons, ih, mem_keys_set]
    constructor
    · rintro ((h | h) | ⟨x, hx, hxa⟩)
      · exact Or.inr ⟨l, by simp, h.symm⟩
      · exact Or.inl h
      · exact Or.inr ⟨x, by simp [hx], hxa⟩
    · rintro (h | ⟨x, hx, hxa⟩)
      · exact Or.inl (Or.inr h)
      · rcases List.mem_cons.mp hx with rfl | hx'
        · exact Or.inl (Or.inl hxa.symm)
        · exact Or.inr ⟨x, hx', hxa⟩

theorem nodup_keys_assignAll (lines : List Str) (m : PortMap) (h : m.keys.Nodup) :
    (assignAll lines m).keys.Nodup := by
  induction lines generalizing m with
  | nil => exact h
  | cons l rest ih => rw [assignAll_cons]; exact ih _ (nodup_keys_set _ _ _ h)

/-! ## Where the separator can occur -/

theorem prefix_of_not_mem (sep a b : Str) (c : Char) (h : sep <+: a ++ c :: b) (hc : c ∉ sep) :
    sep <+: a := by
  by_cases hlen : sep.length ≤ a.length
  · exact List.prefix_of_prefix_length_le h (List.prefix_append a (c :: b)) hlen
  · exfalso
    have h2 : a ++ [c] <+: a ++ c :: b := ⟨b, by simp⟩
    have h3 : a ++ [c] <+: sep :=
      List.prefix_of_prefix_length_le h2 h (by simp; omega)
    obtain ⟨t, ht⟩ := h3
    apply hc
    rw [← ht]
    simp

/-- An occurrence of `sep` in a text cut by a character foreign to `sep` lies
on one side of the cut. -/
theorem infix_of_not_mem (sep a b : Str) (c : Char) (h : sep <:+: a ++ c :: b) (hc : c ∉ sep) :
    sep <:+: a ∨ sep <:+: b := by
  induction a with
  | nil =>
    rw [List.nil_append, List.infix_cons_iff] at h
    rcases h with h | h
    · exact Or.inl (prefix_of_not_mem sep [] b c h hc).isInfix
    · exact Or.inr h
  | cons x a ih =>
    rw [List.cons_append, List.infix_cons_iff] at h
    rcases h with h | h
    · exact Or.inl (prefix_of_not_mem sep (x :: a) b c h hc).isInfix
    · rcases ih h with h1 | h1
      · exact Or.inl (h1.trans (List.suffix_cons x a).isInfix)
      · exact Or.inr h1

theorem not_arrow_infix_nil : ¬ arrow <:+: ([] : Str) := by
  intro h
  have := List.eq_nil_of_infix_nil h
  simp [arrow] at this

theorem not_arrow_infix_Join (ps : List Str) (h : ∀ p ∈ ps, ¬ arrow <:+: p) :
    ¬ arrow <:+: Join ps comma := by
  induction ps with
  | nil => exact not_arrow_infix_nil
  | cons p rest ih =>
    cases rest with
    | nil => exact h p (by simp)
    | cons q r =>
      rw [Join_cons _ _ _ (by simp)]
      intro hi
      have hi' : arrow <:+: p ++ ',' :: Join (q :: r) comma := by simpa [comma] using hi
      rcases infix_of_not_mem arrow p _ ',' hi' (by simp [arrow]) with h1 | h1
      · exact h p (by simp) h1
      · exact ih (fun x hx => h x (by simp [hx])) h1

theorem not_arrow_infix_bracketed (ps : List Str) (h : ∀ p ∈ ps, ¬ arrow <:+: p) :
    ¬ arrow <:+: '[' :: Join ps comma ++ [']'] := by
  intro hi
  have hi' : arrow <:+: [] ++ '[' :: (Join ps comma ++ ']' :: []) := by simpa using hi
  rcases infix_of_not_mem arrow [] _ '[' hi' (by simp [arrow]) with h1 | h1
  · exact not_arrow_infix_nil h1
  · rcases infix_of_not_mem arrow _ [] ']' h1 (by simp [arrow]) with h2 | h2
    · exact not_arrow_infix_Join ps h h2
    · exact not_arrow_infix_nil h2

/-- In `A -> R` the separator written after `A` is the leftmost one when `A`
neither holds the separator nor ends with its first three characters. -/
theorem arrow_leftmost (A R : Str) (h1 : ¬ arrow <:+: A) (h2 : ¬ [' ', '-', '>'] <:+ A) :
    ∀ A1 A2, A = A1 ++ A2 → A2 ≠ [] → ¬ arrow <+: A2 ++ arrow ++ R := by
  intro A1 A2 hA hne hp
  obtain ⟨t, ht⟩ := hp
  rcases A2 with _ | ⟨a, _ | ⟨b, _ | ⟨c, _ | ⟨d, A2⟩⟩⟩⟩
  · exact hne rfl
  · simp [arrow] at ht
  · simp [arrow] at ht
  · simp only [arrow, List.cons_append, List.nil_append, List.cons.injEq] at ht
    obtain ⟨ha, hb, hc, _⟩ := ht
    apply h2
    rw [hA, ← ha, ← hb, ← hc]
    exact List.suffix_append _ _
  · simp only [arrow, List.cons_append, List.nil_append, List.cons.injEq] at ht
    obtain ⟨ha, hb, hc, hd, _⟩ := ht
    apply h1
    rw [hA, ← ha, ← hb, ← hc, ← hd]
    exact ⟨A1, A2, by simp [arrow]⟩

/-- A line `A -> R` with the separator nowhere else splits into `A` and `R`. -/
theorem Split_arrow (A R : Str) (h1 : ¬ arrow <:+: A) (h2 : ¬ [' ', '-', '>'] <:+ A)
    (h3 : ¬ arrow <:+: R) : Split (A ++ arrow ++ R) arrow = [A, R] := by
  unfold Split
  rw [if_neg arrow_ne_nil, splitGo_first arrow arrow_ne_nil A R (arrow_leftmost A R h1 h2),
    splitGo_noOcc arrow R h3]
  simp

/-! ## A line that does not fit the scanner buffer -/

theorem rawLinesGo_noNewline (s acc : Str) (h : '\n' ∉ s) (hne : acc.reverse ++ s ≠ []) :
    rawLinesGo s acc = [acc.reverse ++ s] := by
  induction s generalizing acc with
  | nil =>
    cases acc with
    | nil => simp at hne
    | cons c acc => simp [rawLinesGo]
  | cons c cs ih =>
    have hc : c ≠ '\n' := fun e => h (by simp [e])
    rw [rawLinesGo, if_neg hc, ih (c :: acc) (fun hm => h (by simp [hm])) (by simp)]
    simp

theorem rawLines_single (s : Str) (h : '\n' ∉ s) (hne : s ≠ []) : rawLines s = [s] := by
  rw [rawLines, rawLinesGo_noNewline s [] h (by simpa using hne)]
  simp

theorem length_le_byteLen (s : Str) : s.length ≤ byteLen s := by
  induction s with
  | nil => simp [byteLen]
  | cons c cs ih =>
    have := Char.utf8Size_pos c
    simp only [byteLen, List.map_cons, List.sum_cons, List.length_cons] at ih ⊢
    omega

theorem dropCR_of_getLast (s : Str) (h : s.getLast? ≠ some '\r') : dropCR s = s := by
  simp [dropCR, h]

/-- A single line too long for the buffer: nothing is delivered and the scan
ends on the error. -/
theorem scan_single_tooLong (s : Str) (h : '\n' ∉ s) (hlen : maxTokenSize ≤ s.length) :
    scan s = ([], true) := by
  have hne : s ≠ [] := by
    intro e
    rw [e] at hlen
    simp [maxTokenSize] at hlen
  have hb : ¬ byteLen s < maxTokenSize := by
    have := length_le_byteLen s
    omega
  unfold scan
  rw [rawLines_single s h hne]
  simp [List.takeWhile, hb]

theorem longLine_length (n : Nat) : (longLine n).length = n + 7 := by
  simp [longLine, arrow]

theorem longLine_noNewline (n : Nat) : '\n' ∉ longLine n := by
  simp [longLine, arrow, List.mem_replicate]

theorem longLine_fileLines (n : Nat) : fileLines (longLine n) = [longLine n] := by
  have hne : longLine n ≠ [] := by simp [longLine]
  rw [fileLines, rawLines_single _ (longLine_noNewline n) hne]
  simp only [List.map_cons, List.map_nil]
  rw [dropCR_of_getLast]
  have e : longLine n = ('a' :: arrow ++ '[' :: List.replicate n '1') ++ [']'] := by
    simp [longLine]
  rw [e, List.getLast?_append_of_ne_nil _ (by simp)]
  simp

theorem longLine_Split (n : Nat) :
    Split (longLine n) arrow = [['a'], '[' :: List.replicate n '1' ++ [']']] := by
  have h := Split_arrow ['a'] ('[' :: List.replicate n '1' ++ [']'])
    (by decide) (by decide)
    (by
      intro hi
      have hm : ' ' ∈ '[' :: List.replicate n '1' ++ [']'] := hi.subset (by simp [arrow])
      simp [List.mem_replicate] at hm)
  simpa [longLine] using h

/-- The parse of a one-line input that does not fit the scanner buffer. -/
theorem parseFile_longLine (n : Nat) (h : maxTokenSize ≤ n) :
    parseFile (some (longLine n)) = .error .readFile := by
  rw [parseFile_some, scan_single_tooLong _ (longLine_noNewline n)
    (by rw [longLine_length]; omega)]
  rfl

/-! ## The parser -/

/-- C1, as amended.  Take an input whose lines all fit the scanner buffer and
all split in two on the separator, and in it a line `A -> [p1,...,pn]` with
`n ≥ 1`, where `A` has no white space at either end, does not hold the
separator and does not end with ` ->`, each `pi` is free of commas and of the
separator, `p1` does not start and `pn` does not end with a bracket, and no
later line carries the address `A`.  Then `parseFile` returns a mapping, and
its entry for `A` is `[p1, ..., pn]`, in that order. -/
theorem parseFile_entry (data : Str) (pre post : List Str) (A : Str) (ps : List Str)
    (hfit : ∀ l ∈ rawLines data, byteLen l < maxTokenSize)
    (hwf : ∀ l ∈ fileLines data, (Split l arrow).length = 2)
    (hline : fileLines data = pre ++ (A ++ arrow ++ ('[' :: Join ps comma ++ [']'])) :: post)
    (hn : ps ≠ [])
    (hA1 : ∀ c, A.head? = some c → isSpace c = false)
    (hA2 : ∀ c, A.getLast? = some c → isSpace c = false)
    (hA3 : ¬ arrow <:+: A)
    (hA4 : ¬ [' ', '-', '>'] <:+ A)
    (hp : ∀ p ∈ ps, ',' ∉ p ∧ ¬ arrow <:+: p)
    (hp1 : ∀ p1, ps.head? = some p1 → ∀ c, p1.head? = some c → c ≠ '[' ∧ c ≠ ']')
    (hpn : ∀ pn, ps.getLast? = some pn → ∀ c, pn.getLast? = some c → c ≠ '[' ∧ c ≠ ']')
    (hlast : ∀ l ∈ post, lineAddr l ≠ A) :
    ∃ m, parseFile (some data) = .ok m ∧ m.get? A = some ps := by
  have hsplit : Split (A ++ arrow ++ ('[' :: Join ps comma ++ [']'])) arrow =
      [A, '[' :: Join ps comma ++ [']']] :=
    Split_arrow A _ hA3 hA4 (not_arrow_infix_bracketed ps (fun p hpm => (hp p hpm).2))
  have haddr : lineAddr (A ++ arrow ++ ('[' :: Join ps comma ++ [']'])) = A := by
    rw [lineAddr, hsplit]
    exact TrimSpace_id A hA1 hA2
  have hports : linePorts (A ++ arrow ++ ('[' :: Join ps comma ++ [']'])) = ps := by
    rw [linePorts, hsplit]
    simp only [List.getD_cons_succ, List.getD_cons_zero]
    rw [Trim_wrap, Split_Join_comma ps hn (fun p hpm => (hp p hpm).1)]
    · intro c hc
      rcases Join_head ps c hc with rfl | ⟨p1, h1, h2⟩
      · decide
      · exact hp1 p1 h1 c h2
    · intro c hc
      rcases Join_getLast ps c hc with rfl | ⟨pn, h1, h2⟩
      · decide
      · exact hpn pn h1 c h2
  refine ⟨_, parseFile_of_wf data hfit hwf, ?_⟩
  rw [hline]
  have := get?_assignAll_last pre post (A ++ arrow ++ ('[' :: Join ps comma ++ [']'])) []
    (by rw [haddr]; exact hlast)
  rw [haddr, hports] at this
  exact this

/-- C1, an instance of `parseFile_entry`: the second line of a three-line input
with a carriage return, whose first line carries the same address. -/
theorem parseFile_entry_witness :
    ∃ m, parseFile (some "1.1.1.1 -> [9]\n1.1.1.1 -> [22,80,443]\r\n2.2.2.2 -> [53]".toList) = .ok m ∧
      m.get? "1.1.1.1".toList = some ["22".toList, "80".toList, "443".toList] :=
  parseFile_entry "1.1.1.1 -> [9]\n1.1.1.1 -> [22,80,443]\r\n2.2.2.2 -> [53]".toList
    ["1.1.1.1 -> [9]".toList] ["2.2.2.2 -> [53]".toList] "1.1.1.1".toList
    ["22".toList, "80".toList, "443".toList]
    (by decide) (by decide) (by decide) (by decide)
    (by intro c hc; cases hc; decide) (by intro c hc; cases hc; decide)
    (by decide) (by decide) (by decide)
    (by intro p1 h1 c hc; cases h1; cases hc; decide)
    (by intro pn h1 c hc; cases h1; cases hc; decide)
    (by decide)

/-- C1 fails as stated, at two inputs.  In `x -> -> [1]` the address `x ->`
has no white space at its ends and does not hold the separator, yet the line
is cut after `x`: the mapping has the key `x` with the port `-> [1`, and no
entry for `x ->`.  And the one-line input `a -> [11...1]` with 1048576 digits
splits in two but returns no mapping: the line does not fit the scanner
buffer. -/
theorem parseFile_entry_counterexample :
    (fileLines "x -> -> [1]".toList =
        ["x ->".toList ++ arrow ++ ('[' :: Join ["1".toList] comma ++ [']'])] ∧
      ¬ arrow <:+: "x ->".toList ∧
      TrimSpace "x ->".toList = "x ->".toList ∧
      Split "x -> -> [1]".toList arrow = ["x".toList, "-> [1]".toList] ∧
      parseFile (some "x -> -> [1]".toList) = .ok [("x".toList, ["-> [1".toList])] ∧
      PortMap.get? [("x".toList, ["-> [1".toList])] "x ->".toList = none) ∧
    (fileLines (longLine 1048576) =
        [['a'] ++ arrow ++ ('[' :: Join [List.replicate 1048576 '1'] comma ++ [']'])] ∧
      Split (longLine 1048576) arrow = [['a'], '[' :: List.replicate 1048576 '1' ++ [']']] ∧
      parseFile (some (longLine 1048576)) = .error .readFile) :=
  ⟨by decide, longLine_fileLines 1048576, longLine_Split 1048576,
    parseFile_longLine 1048576 (by decide)⟩

/-- C2, as amended.  For an input whose lines all fit the scanner buffer
(each raw line shorter than 1048576 bytes), `parseFile` aborts if and only if
some line does not split on the separator into exactly two parts; the abort is
then the invalid-line one, at such a line, and no mapping is returned.  When
every line splits in two the parse returns a mapping.  A line does not split
in two exactly when it has no occurrence of the separator (the empty line is
such a line) or two or more occurrences that do not overlap, that is when it
reads `A -> B -> C` for some `A`, `B`, `C`. -/
theorem parseFile_abort_iff (data : Str)
    (hfit : ∀ l ∈ rawLines data, byteLen l < maxTokenSize) :
    ((∃ f, parseFile (some data) = .error f) ↔
        ∃ l ∈ fileLines data, (Split l arrow).length ≠ 2) ∧
    (∀ f, parseFile (some data) = .error f →
        ∃ l ∈ fileLines data, (Split l arrow).length ≠ 2 ∧ f = .invalidLine l) ∧
    ((∀ l ∈ fileLines data, (Split l arrow).length = 2) →
        ∃ m, parseFile (some data) = .ok m) ∧
    (∀ l : Str, ¬ arrow <:+: l → (Split l arrow).length ≠ 2) ∧
    (Split [] arrow).length ≠ 2 ∧
    (∀ A B C : Str, (Split (A ++ arrow ++ B ++ arrow ++ C) arrow).length ≠ 2) ∧
    (∀ l : Str, (Split l arrow).length ≠ 2 ↔
      (¬ arrow <:+: l) ∨ ∃ A B C, l = A ++ arrow ++ B ++ arrow ++ C) := by
  have hs := scan_of_fit data hfit
  have key : ∀ f, parseFile (some data) = .error f →
      ∃ l ∈ fileLines data, (Split l arrow).length ≠ 2 ∧ f = .invalidLine l := by
    intro f hf
    rcases parseLines_cases (fileLines data) [] with ⟨hwf, _⟩ | ⟨l, hl, hl2, _⟩
    · rw [parseFile_of_wf data hfit hwf] at hf
      cases hf
    · rw [parseFile_some, hs] at hf
      obtain ⟨b, hb, hb2, hb3⟩ := parseLines_bad (fileLines data) [] ⟨l, hl, hl2⟩
      simp only [hb3] at hf
      cases hf
      exact ⟨b, hb, hb2, rfl⟩
  refine ⟨⟨?_, ?_⟩, key, ?_, ?_, by decide,
    fun A B C => (Split_length_ne_two_iff _ arrow arrow_ne_nil).mpr (Or.inr ⟨A, B, C, rfl⟩),
    fun l => Split_length_ne_two_iff l arrow arrow_ne_nil⟩
  · rintro ⟨f, hf⟩
    obtain ⟨l, hl, hl2, _⟩ := key f hf
    exact ⟨l, hl, hl2⟩
  · intro hbad
    obtain ⟨b, _, _, hb3⟩ := parseLines_bad (fileLines data) [] hbad
    refine ⟨.invalidLine b, ?_⟩
    rw [parseFile_some, hs]
    simp only [hb3]
  · intro hwf
    exact ⟨_, parseFile_of_wf data hfit hwf⟩
  · intro l hl
    rw [Split_length_of_noOcc l hl]
    decide

/-- C2, an instance of `parseFile_abort_iff`: an input whose third line is
empty. -/
theorem parseFile_abort_iff_witness :
    ((∃ f, parseFile (some "1.1.1.1 -> [80]\n2.2.2.2 -> [53]\n\n".toList) = .error f) ↔
        ∃ l ∈ fileLines "1.1.1.1 -> [80]\n2.2.2.2 -> [53]\n\n".toList,
          (Split l arrow).length ≠ 2) ∧
    (∀ f, parseFile (some "1.1.1.1 -> [80]\n2.2.2.2 -> [53]\n\n".toList) = .error f →
        ∃ l ∈ fileLines "1.1.1.1 -> [80]\n2.2.2.2 -> [53]\n\n".toList,
          (Split l arrow).length ≠ 2 ∧ f = .invalidLine l) ∧
    ((∀ l ∈ fileLines "1.1.1.1 -> [80]\n2.2.2.2 -> [53]\n\n".toList,
          (Split l arrow).length = 2) →
        ∃ m, parseFile (some "1.1.1.1 -> [80]\n2.2.2.2 -> [53]\n\n".toList) = .ok m) ∧
    (∀ l : Str, ¬ arrow <:+: l → (Split l arrow).length ≠ 2) ∧
    (Split [] arrow).length ≠ 2 ∧
    (∀ A B C : Str, (Split (A ++ arrow ++ B ++ arrow ++ C) arrow).length ≠ 2) ∧
    (∀ l : Str, (Split l arrow).length ≠ 2 ↔
      (¬ arrow <:+: l) ∨ ∃ A B C, l = A ++ arrow ++ B ++ arrow ++ C) :=
  parseFile_abort_iff "1.1.1.1 -> [80]\n2.2.2.2 -> [53]\n\n".toList (by decide)

/-- C2 fails as stated, at two inputs.  The one-line input `a -> [11...1]`
with 1048576 digits has no line that fails to split in two (its only line
gives the two parts `a` and `[11...1]`), yet `parseFile` aborts, on the read
error of a line that does not fit the scanner buffer.  And the line
`x -> -> [1]` holds the separator twice, at offsets 1 and 4, the two
occurrences sharing a space; it splits into the two parts `x` and `-> [1]`
and the parse succeeds. -/
theorem parseFile_abort_counterexample :
    (parseFile (some (longLine 1048576)) = .error .readFile ∧
      fileLines (longLine 1048576) = [longLine 1048576] ∧
      (∀ l ∈ fileLines (longLine 1048576), (Split l arrow).length = 2)) ∧
    (fileLines "x -> -> [1]".toList = ["x -> -> [1]".toList] ∧
      arrow <+: "x -> -> [1]".toList.drop 1 ∧
      arrow <+: "x -> -> [1]".toList.drop 4 ∧
      Split "x -> -> [1]".toList arrow = ["x".toList, "-> [1]".toList] ∧
      parseFile (some "x -> -> [1]".toList) = .ok [("x".toList, ["-> [1".toList])]) := by
  refine ⟨⟨parseFile_longLine 1048576 (by decide), longLine_fileLines 1048576, ?_⟩, by decide⟩
  intro l hl
  rw [longLine_fileLines, List.mem_singleton] at hl
  rw [hl, longLine_Split]
  rfl

/-- C6.  When `parseFile` returns a mapping, the mapping has one key per
distinct address of the input (the keys are the addresses of the lines, each
once), and for every line that is the last one in file order to carry its
address, the entry of that address is exactly the port list of that line:
what earlier lines with the same address assigned is overwritten. -/
theorem parseFile_last_wins (data : Str) (m : PortMap) (h : parseFile (some data) = .ok m) :
    m.keys.Nodup ∧
    (∀ a, a ∈ m.keys ↔ ∃ l ∈ fileLines data, lineAddr l = a) ∧
    m.keys.Perm ((fileLines data).map lineAddr).dedup ∧
    (∀ pre l post, fileLines data = pre ++ l :: post →
      (∀ x ∈ post, lineAddr x ≠ lineAddr l) → m.get? (lineAddr l) = some (linePorts l)) := by
  obtain ⟨_, _, hm⟩ := parseFile_ok data m h
  subst hm
  have hnd : (assignAll (fileLines data) []).keys.Nodup :=
    nodup_keys_assignAll _ _ (by simp [PortMap.keys])
  have hmem : ∀ a, a ∈ (assignAll (fileLines data) []).keys ↔
      ∃ l ∈ fileLines data, lineAddr l = a := by
    intro a
    rw [mem_keys_assignAll]
    simp [PortMap.keys]
  refine ⟨hnd, hmem, ?_, ?_⟩
  · rw [List.perm_ext_iff_of_nodup hnd (List.nodup_dedup _)]
    intro a
    rw [hmem, List.mem_dedup, List.mem_map]
  · intro pre l post hl hpost
    rw [hl]
    exact get?_assignAll_last pre post l [] hpost

/-- C6, an instance of `parseFile_last_wins`: three lines for one address
(written with different white space) and one line for another; the entry is
the one of the third line. -/
theorem parseFile_last_wins_witness :
    PortMap.get? [("2.2.2.2".toList, ["53".toList]), ("1.1.1.1".toList, ["443".toList])]
        (lineAddr "1.1.1.1  -> [443]".toList) =
      some (linePorts "1.1.1.1  -> [443]".toList) :=
  (parseFile_last_wins
    "1.1.1.1 -> [22,80]\n 1.1.1.1 -> [8080]\n1.1.1.1  -> [443]\n2.2.2.2 -> [53]".toList
    [("2.2.2.2".toList, ["53".toList]), ("1.1.1.1".toList, ["443".toList])] (by decide)).2.2.2
    ["1.1.1.1 -> [22,80]".toList, " 1.1.1.1 -> [8080]".toList] "1.1.1.1  -> [443]".toList
    ["2.2.2.2 -> [53]".toList] (by decide) (by decide)

theorem privateBlocks_eq :
    privateBlocks = .ok [⟨[10, 0, 0, 0], [255, 0, 0, 0]⟩, ⟨[172, 16, 0, 0], [255, 240, 0, 0]⟩,
      ⟨[192, 168, 0, 0], [255, 255, 0, 0]⟩] := by decide

/-- The function `isInternalIP` never panics: the three networks parse. -/
theorem isInternalIP_ok (ip : IP) :
    isInternalIP ip = .ok (ip.IsLoopback ||
      [(⟨[10, 0, 0, 0], [255, 0, 0, 0]⟩ : IPNet), ⟨[172, 16, 0, 0], [255, 240, 0, 0]⟩,
        ⟨[192, 168, 0, 0], [255, 255, 0, 0]⟩].any (fun block => block.Contains ip)) := by
  unfold isInternalIP
  rw [privateBlocks_eq]
  cases h : ip.IsLoopback <;> simp

theorem To4_IPv4 (a b c d : Nat) : (IPv4 a b c d).To4 = some [a, b, c, d] := by
  simp [IPv4, IP.To4, v4InV6Prefix]

theorem To4_quad (a b c d : Nat) : IP.To4 [a, b, c, d] = some [a, b, c, d] := by
  simp [IP.To4]

set_option maxRecDepth 100000 in
theorem land_255 : ∀ a < 256, a &&& 255 = a := by decide

set_option maxRecDepth 100000 in
theorem land_240 : ∀ b < 256, (16 = b &&& 240 ↔ 16 ≤ b ∧ b ≤ 31) := by decide

theorem Contains_v4 (n0 n1 n2 n3 m0 m1 m2 m3 a b c d : Nat) (ip : IP)
    (h : ip.To4 = some [a, b, c, d]) :
    (IPNet.mk [n0, n1, n2, n3] [m0, m1, m2, m3]).Contains ip =
      decide (n0 &&& m0 = a &&& m0 ∧ n1 &&& m1 = b &&& m1 ∧ n2 &&& m2 = c &&& m2 ∧
        n3 &&& m3 = d &&& m3) := by
  unfold IPNet.Contains
  rw [h]
  simp [networkNumberAndMask, IP.To4, List.range_succ, List.range_zero]

theorem IsLoopback_v4 (a b c d : Nat) (ip : IP) (h : ip.To4 = some [a, b, c, d]) :
    ip.IsLoopback = decide (a = 127) := by
  simp [IP.IsLoopback, h]

/-- The verdict of `isInternalIP` on an address whose IPv4 form is `a.b.c.d`. -/
theorem isInternalIP_v4 (a b c d : Nat) (ip : IP) (h : ip.To4 = some [a, b, c, d])
    (ha : a < 256) (hb : b < 256) :
    isInternalIP ip = .ok (decide
      (a = 127 ∨ a = 10 ∨ (a = 172 ∧ 16 ≤ b ∧ b ≤ 31) ∨ (a = 192 ∧ b = 168))) := by
  rw [isInternalIP_ok, IsLoopback_v4 a b c d ip h]
  simp only [List.any_cons, List.any_nil, Contains_v4 _ _ _ _ _ _ _ _ a b c d ip h,
    Bool.or_false]
  have h1 := land_255 a ha
  have h2 := land_255 b hb
  have h3 := land_240 b hb
  congr 1
  simp only [Nat.and_zero, Nat.zero_and, and_true, h1, h2]
  have e10 : (10 : Nat) &&& 255 = 10 := by decide
  have e172 : (172 : Nat) &&& 255 = 172 := by decide
  have e192 : (192 : Nat) &&& 255 = 192 := by decide
  have e168 : (168 : Nat) &&& 255 = 168 := by decide
  have e16 : (16 : Nat) &&& 240 = 16 := by decide
  simp only [e10, e172, e192, e168, e16, h3]
  by_cases p1 : a = 127 <;> by_cases p2 : a = 10 <;> by_cases p3 : a = 172 <;>
    by_cases p4 : a = 192 <;> by_cases p5 : b = 168 <;>
    by_cases p6 : (16 ≤ b ∧ b ≤ 31) <;>
    simp [p1, p2, p3, p4, p5, p6, eq_comm]


/-- C3.  For the IPv4 address `a.b.c.d` (bytes `a` and `b`; `c` and `d` play no
part), in the 16-byte form `net.ParseIP` returns and in the 4-byte form alike,
`isInternalIP` returns true if and only if `a = 127`, or `a = 10`, or `a = 172`
and `16 ≤ b ≤ 31`, or `a = 192` and `b = 168`, and false otherwise; it never
panics.  The addresses 127.0.0.1, 10.1.2.3, 172.16.0.1 and 192.168.1.1 are
internal; 8.8.8.8, 172.15.255.255, 172.32.0.0 and 192.169.0.1 are not. -/
theorem isInternalIP_IPv4 (a b c d : Nat) (ha : a < 256) (hb : b < 256) :
    (isInternalIP (IPv4 a b c d) = .ok true ↔
      (a = 127 ∨ a = 10 ∨ (a = 172 ∧ 16 ≤ b ∧ b ≤ 31) ∨ (a = 192 ∧ b = 168))) ∧
    (isInternalIP (IPv4 a b c d) = .ok false ↔
      ¬ (a = 127 ∨ a = 10 ∨ (a = 172 ∧ 16 ≤ b ∧ b ≤ 31) ∨ (a = 192 ∧ b = 168))) ∧
    isInternalIP [a, b, c, d] = isInternalIP (IPv4 a b c d) ∧
    (ParseIPv4Only "127.0.0.1".toList).map isInternalIP = some (.ok true) ∧
    (ParseIPv4Only "10.1.2.3".toList).map isInternalIP = some (.ok true) ∧
    (ParseIPv4Only "172.16.0.1".toList).map isInternalIP = some (.ok true) ∧
    (ParseIPv4Only "192.168.1.1".toList).map isInternalIP = some (.ok true) ∧
    (ParseIPv4Only "8.8.8.8".toList).map isInternalIP = some (.ok false) ∧
    (ParseIPv4Only "172.15.255.255".toList).map isInternalIP = some (.ok false) ∧
    (ParseIPv4Only "172.32.0.0".toList).map isInternalIP = some (.ok false) ∧
    (ParseIPv4Only "192.169.0.1".toList).map isInternalIP = some (.ok false) := by
  have h16 := isInternalIP_v4 a b c d (IPv4 a b c d) (To4_IPv4 a b c d) ha hb
  have h4 := isInternalIP_v4 a b c d [a, b, c, d] (To4_quad a b c d) ha hb
  refine ⟨?_, ?_, by rw [h16, h4], by decide, by decide, by decide, by decide, by decide,
    by decide, by decide, by decide⟩
  · rw [h16]; simp
  · rw [h16]; simp

/-- C3, an instance of `isInternalIP_IPv4`: the address 172.31.255.255, the
last one of 172.16.0.0/12. -/
theorem isInternalIP_IPv4_witness :
    isInternalIP (IPv4 172 31 255 255) = .ok true ↔
      ((172 : Nat) = 127 ∨ (172 : Nat) = 10 ∨ ((172 : Nat) = 172 ∧ 16 ≤ 31 ∧ 31 ≤ 31) ∨
        ((172 : Nat) = 192 ∧ (31 : Nat) = 168)) :=
  (isInternalIP_IPv4 172 31 255 255 (by decide) (by decide)).1

/-! ## Facts about the dispatcher -/

theorem invocations_append (a b : List Event) :
    invocations (a ++ b) = invocations a ++ invocations b := by
  simp [invocations, List.filterMap_append]

theorem isInternalIP_total (ip : IP) : ∃ b, isInternalIP ip = .ok b :=
  ⟨_, isInternalIP_ok ip⟩

section dispatcher

variable (ParseIP : Str → Option IP)
variable (run : List Event → Str → List Str → Bool)
variable (outputFolderPath : Str)

/-- The loop body on an address that does not parse: one log line, and the
loop goes on. -/
theorem loopBody_invalid (tr : List Event) (ip : Str) (ports : List Str)
    (h : ParseIP ip = none) :
    loopBody ParseIP run outputFolderPath tr ip ports =
      (tr ++ [.log ("Invalid IP address: ".toList ++ ip ++ ", skipping".toList)], none) := by
  simp [loopBody, h]

/-- The loop body on an internal address: one line of output, and the loop
goes on. -/
theorem loopBody_internal (tr : List Event) (ip : Str) (ports : List Str) (p : IP)
    (h1 : ParseIP ip = some p) (h2 : isInternalIP p = .ok true) :
    loopBody ParseIP run outputFolderPath tr ip ports =
      (tr ++ [.stdout ("Skipping internal IP: ".toList ++ ip ++ "\n".toList)], none) := by
  simp [loopBody, h1, h2]

/-- The loop body on a routable address with more than 1000 ports: two lines
of output, and the loop goes on. -/
theorem loopBody_tooMany (tr : List Event) (ip : Str) (ports : List Str) (p : IP)
    (h1 : ParseIP ip = some p) (h2 : isInternalIP p = .ok false) (h3 : 1000 < ports.length) :
    loopBody ParseIP run outputFolderPath tr ip ports =
      (tr ++ [.stdout (ip ++ "\n".toList),
        .stdout ("Ports length ".toList ++ fmtNat ports.length ++
          " > 1000, skipping... \n".toList)], none) := by
  simp [loopBody, h1, h2, h3]

/-- The loop body on a routable address with at most 1000 ports: three lines
of output, the command, and the end of the process when the command fails. -/
theorem loopBody_dispatch (tr : List Event) (ip : Str) (ports : List Str) (p : IP)
    (h1 : ParseIP ip = some p) (h2 : isInternalIP p = .ok false) (h3 : ports.length ≤ 1000) :
    loopBody ParseIP run outputFolderPath tr ip ports =
      (tr ++ [.stdout (ip ++ "\n".toList), .stdout (Join ports comma ++ "\n".toList),
          .stdout ("输出文件 outputFilePath: ".toList ++
            (outputFolderPath ++ "/".toList ++ ip ++ ".xml".toList))] ++
        [.exec "nmap".toList (nmapArgs outputFolderPath ip ports)],
       if run (tr ++ [.stdout (ip ++ "\n".toList), .stdout (Join ports comma ++ "\n".toList),
          .stdout ("输出文件 outputFilePath: ".toList ++
            (outputFolderPath ++ "/".toList ++ ip ++ ".xml".toList))])
          "nmap".toList (nmapArgs outputFolderPath ip ports) then none
       else some (.fatal none
        ("Error running nmap for ".toList ++ ip ++ ":".toList ++ Join ports comma))) := by
  have h3' : ¬ 1000 < ports.length := by omega
  simp only [loopBody, h1, h2, h3', if_false, nmapArgs]
  split <;> simp_all

theorem eligible_iff (ip : Str) (ports : List Str) :
    eligible ParseIP (ip, ports) = true ↔
      ∃ p, ParseIP ip = some p ∧ isInternalIP p = .ok false ∧ ports.length ≤ 1000 := by
  unfold eligible
  cases h : ParseIP ip with
  | none => simp
  | some p => simp

/-- An entry that is not eligible adds events but no command, and the loop
goes on. -/
theorem loopBody_skip (tr : List Event) (ip : Str) (ports : List Str)
    (h : eligible ParseIP (ip, ports) = false) :
    ∃ ev, loopBody ParseIP run outputFolderPath tr ip ports = (tr ++ ev, none) ∧
      invocations ev = [] := by
  cases h1 : ParseIP ip with
  | none => exact ⟨_, loopBody_invalid ParseIP run outputFolderPath tr ip ports h1, rfl⟩
  | some p =>
    obtain ⟨b, hb⟩ := isInternalIP_total p
    cases b with
    | true => exact ⟨_, loopBody_internal ParseIP run outputFolderPath tr ip ports p h1 hb, rfl⟩
    | false =>
      have h3 : 1000 < ports.length := by
        by_contra hle
        have : eligible ParseIP (ip, ports) = true :=
          (eligible_iff ParseIP ip ports).mpr ⟨p, h1, hb, by omega⟩
        rw [h] at this
        exact Bool.noConfusion this
      exact ⟨_, loopBody_tooMany ParseIP run outputFolderPath tr ip ports p h1 hb h3, rfl⟩

/-- An eligible entry adds its command after some output; the loop goes on
exactly when the command succeeds. -/
theorem loopBody_run (tr : List Event) (ip : Str) (ports : List Str)
    (h : eligible ParseIP (ip, ports) = true) :
    ∃ ev text, invocations ev = [] ∧
      loopBody ParseIP run outputFolderPath tr ip ports =
        (tr ++ ev ++ [.exec "nmap".toList (nmapArgs outputFolderPath ip ports)],
          if run (tr ++ ev) "nmap".toList (nmapArgs outputFolderPath ip ports) then none
          else some (.fatal none text)) := by
  obtain ⟨p, h1, h2, h3⟩ := (eligible_iff ParseIP ip ports).mp h
  refine ⟨[.stdout (ip ++ "\n".toList), .stdout (Join ports comma ++ "\n".toList),
    .stdout ("输出文件 outputFilePath: ".toList ++
      (outputFolderPath ++ "/".toList ++ ip ++ ".xml".toList))],
    "Error running nmap for ".toList ++ ip ++ ":".toList ++ Join ports comma, rfl, ?_⟩
  exact loopBody_dispatch ParseIP run outputFolderPath tr ip ports p h1 h2 h3

theorem rangeLoop_cons (ip : Str) (ports : List Str) (rest : List (Str × List Str))
    (tr : List Event) :
    rangeLoop ParseIP run outputFolderPath ((ip, ports) :: rest) tr =
      match loopBody ParseIP run outputFolderPath tr ip ports with
      | (tr, none) => rangeLoop ParseIP run outputFolderPath rest tr
      | (tr, some x) => (tr, some x) := rfl

/-- When every command of the entries succeeds, the loop visits all of them
and runs the commands of the eligible ones, in the order of the visit. -/
theorem rangeLoop_all_ok (order : List (Str × List Str)) (tr : List Event)
    (hrun : ∀ t, ∀ e ∈ order, run t "nmap".toList (nmapArgs outputFolderPath e.1 e.2) = true) :
    ∃ tr', rangeLoop ParseIP run outputFolderPath order tr = (tr', none) ∧
      invocations tr' = invocations tr ++
        (order.filter (eligible ParseIP)).map (nmapCmd outputFolderPath) := by
  induction order generalizing tr with
  | nil => exact ⟨tr, rfl, by simp⟩
  | cons e rest ih =>
    obtain ⟨ip, ports⟩ := e
    rw [rangeLoop_cons]
    cases hel : eligible ParseIP (ip, ports) with
    | false =>
      obtain ⟨ev, hev, hinv⟩ := loopBody_skip ParseIP run outputFolderPath tr ip ports hel
      rw [hev]
      obtain ⟨tr', h1, h2⟩ := ih (tr ++ ev) (fun t e he => hrun t e (by simp [he]))
      refine ⟨tr', h1, ?_⟩
      rw [h2, invocations_append, hinv, List.filter_cons_of_neg (by simp [hel])]
      simp
    | true =>
      obtain ⟨ev, text, hinv, hev⟩ := loopBody_run ParseIP run outputFolderPath tr ip ports hel
      rw [hev, hrun (tr ++ ev) (ip, ports) (by simp)]
      simp only [if_true]
      obtain ⟨tr', h1, h2⟩ := ih (tr ++ ev ++ [.exec "nmap".toList (nmapArgs outputFolderPath ip ports)])
        (fun t e he => hrun t e (by simp [he]))
      refine ⟨tr', h1, ?_⟩
      rw [h2, invocations_append, invocations_append, hinv, List.filter_cons_of_pos hel]
      simp [invocations, nmapCmd]

/-- When the command of an eligible entry fails, the loop ends there: the
failed command is the last event, after the commands of the eligible entries
visited before it. -/
theorem rangeLoop_fail (pre post : List (Str × List Str)) (ip : Str) (ports : List Str)
    (tr : List Event)
    (hpre : ∀ t, ∀ e ∈ pre, run t "nmap".toList (nmapArgs outputFolderPath e.1 e.2) = true)
    (hel : eligible ParseIP (ip, ports) = true)
    (hfail : ∀ t, run t "nmap".toList (nmapArgs outputFolderPath ip ports) = false) :
    ∃ tr' text, rangeLoop ParseIP run outputFolderPath (pre ++ (ip, ports) :: post) tr =
        (tr' ++ [.exec "nmap".toList (nmapArgs outputFolderPath ip ports)],
          some (.fatal none text)) ∧
      invocations tr' = invocations tr ++
        (pre.filter (eligible ParseIP)).map (nmapCmd outputFolderPath) := by
  induction pre generalizing tr with
  | nil =>
    obtain ⟨ev, text, hinv, hev⟩ := loopBody_run ParseIP run outputFolderPath tr ip ports hel
    refine ⟨tr ++ ev, text, ?_, by simp [invocations_append, hinv]⟩
    rw [List.nil_append, rangeLoop_cons, hev, hfail]
    simp
  | cons e rest ih =>
    obtain ⟨ip', ports'⟩ := e
    rw [List.cons_append, rangeLoop_cons]
    cases hel' : eligible ParseIP (ip', ports') with
    | false =>
      obtain ⟨ev, hev, hinv⟩ := loopBody_skip ParseIP run outputFolderPath tr ip' ports' hel'
      rw [hev]
      obtain ⟨tr', text, h1, h2⟩ := ih (tr ++ ev) (fun t e he => hpre t e (by simp [he]))
      refine ⟨tr', text, h1, ?_⟩
      rw [h2, invocations_append, hinv, List.filter_cons_of_neg (by simp [hel'])]
      simp
    | true =>
      obtain ⟨ev, text', hinv, hev⟩ :=
        loopBody_run ParseIP run outputFolderPath tr ip' ports' hel'
      rw [hev, hpre (tr ++ ev) (ip', ports') (by simp)]
      simp only [if_true]
      obtain ⟨tr', text, h1, h2⟩ :=
        ih (tr ++ ev ++ [.exec "nmap".toList (nmapArgs outputFolderPath ip' ports')])
          (fun t e he => hpre t e (by simp [he]))
      refine ⟨tr', text, h1, ?_⟩
      rw [h2, invocations_append, invocations_append, hinv, List.filter_cons_of_pos hel']
      simp [invocations, nmapCmd]

end dispatcher

theorem nmapCmd_injOn (outputFolderPath : Str) (e e' : Str × List Str)
    (h : nmapCmd outputFolderPath e = nmapCmd outputFolderPath e') : e.1 = e'.1 := by
  simp only [nmapCmd, nmapArgs, Prod.mk.injEq, List.cons.injEq, and_true] at h
  exact h.2.2.2.2.2.2.2

/-- In a mapping two entries with the same command are the same entry. -/
theorem nmapCmd_inj_of_nodup (outputFolderPath : Str) (m : PortMap) (hm : m.keys.Nodup)
    (e e' : Str × List Str) (he : e ∈ m) (he' : e' ∈ m)
    (h : nmapCmd outputFolderPath e = nmapCmd outputFolderPath e') : e = e' := by
  have hk := nmapCmd_injOn outputFolderPath e e' h
  have h1 := get?_eq_some_of_mem m hm e.1 e.2 he
  have h2 := get?_eq_some_of_mem m hm e'.1 e'.2 he'
  rw [hk, h2] at h1
  exact Prod.ext hk (Option.some.inj h1).symm

theorem times_of_nodup (c : Str × List Str) (cmds : List (Str × List Str)) (h : cmds.Nodup) :
    times c cmds = if c ∈ cmds then 1 else 0 := by
  induction cmds with
  | nil => simp [times]
  | cons x xs ih =>
    have hx := List.nodup_cons.mp h
    have ih' := ih hx.2
    unfold times at ih' ⊢
    by_cases hxc : x = c
    · subst hxc
      rw [List.filter_cons_of_pos (by simp), List.length_cons, ih', if_neg hx.1]
      simp
    · rw [List.filter_cons_of_neg (by simpa using hxc), ih']
      have : (c ∈ x :: xs) ↔ c ∈ xs := by
        simp only [List.mem_cons]
        constructor
        · rintro (h1 | h1)
          · exact absurd h1.symm hxc
          · exact h1
        · exact Or.inr
      simp only [this]

theorem times_append (c : Str × List Str) (a b : List (Str × List Str)) :
    times c (a ++ b) = times c a + times c b := by
  simp [times]

/-- Over the entries of a mapping, visited in any order, the commands of the
eligible entries are pairwise different: each occurs once, and the command
of an entry that is not eligible does not occur. -/
theorem count_nmapCmd (ParseIP : Str → Option IP) (outputFolderPath : Str) (m : PortMap)
    (hm : m.keys.Nodup) (order : List (Str × List Str)) (hperm : order.Perm m)
    (e : Str × List Str) (he : e ∈ m) :
    times (nmapCmd outputFolderPath e)
        ((order.filter (eligible ParseIP)).map (nmapCmd outputFolderPath)) =
      if eligible ParseIP e then 1 else 0 := by
  have hmn : m.Nodup := List.Nodup.of_map _ hm
  have hon : order.Nodup := hperm.nodup_iff.mpr hmn
  have hfn : (order.filter (eligible ParseIP)).Nodup := hon.filter _
  have hnd : ((order.filter (eligible ParseIP)).map (nmapCmd outputFolderPath)).Nodup := by
    apply List.Nodup.map_on _ hfn
    intro x hx y hy hxy
    exact nmapCmd_inj_of_nodup outputFolderPath m hm x y
      (hperm.subset (List.mem_filter.mp hx).1) (hperm.subset (List.mem_filter.mp hy).1) hxy
  rw [times_of_nodup _ _ hnd]
  by_cases hel : eligible ParseIP e = true
  · rw [if_pos hel, if_pos]
    exact List.mem_map.mpr ⟨e, List.mem_filter.mpr ⟨hperm.symm.subset he, hel⟩, rfl⟩
  · rw [if_neg hel, if_neg]
    intro hmem
    obtain ⟨x, hx, hxe⟩ := List.mem_map.mp hmem
    have hxm : x ∈ m := hperm.subset (List.mem_filter.mp hx).1
    have := nmapCmd_inj_of_nodup outputFolderPath m hm x e hxm he hxe
    rw [this] at hx
    exact hel (List.mem_filter.mp hx).2

theorem nodup_keys_of_parseFile (file : Option Str) (m : PortMap)
    (h : parseFile file = .ok m) : m.keys.Nodup := by
  cases file with
  | none => cases h
  | some data =>
    obtain ⟨_, _, hm⟩ := parseFile_ok data m h
    rw [hm]
    exact nodup_keys_assignAll _ _ (by simp [PortMap.keys])

theorem main_parsed (ParseIP : Str → Option IP) (run : List Event → Str → List Str → Bool)
    (outputFolderPath inputFilePath : Str) (file : Option Str) (m : PortMap)
    (order : PortMap → List (Str × List Str))
    (hin : inputFilePath ≠ []) (hout : outputFolderPath ≠ []) (hparse : parseFile file = .ok m) :
    main ParseIP run outputFolderPath inputFilePath true file order =
      match rangeLoop ParseIP run outputFolderPath (order m) [.mkdirAll outputFolderPath] with
      | (tr, some x) => (tr, x)
      | (tr, none) =>
        (tr ++ [.stdout "Scanning completed. Results appended to the output folder.\n".toList],
          .done) := by
  simp [main, hin, hout, hparse]

/-! ## The dispatcher -/

/-- C5.  For an entry with address `A` and ports `ps` that is dispatched (the
address parses, is not internal, and there are at most 1000 ports) and an
output folder `O`, the loop body ends its events with the command `nmap` with
the arguments `-sV`, `-sS`, `-p`, the ports joined by commas in list order,
`-oX`, the path `O/A.xml`, and `A`; it runs no other command.  For the input
`203.0.113.5 -> [22,80,443]` and the folder `/tmp/out` the whole run has the
one command with ports `22,80,443` and path `/tmp/out/203.0.113.5.xml`. -/
theorem loopBody_command (ParseIP : Str → Option IP)
    (run : List Event → Str → List Str → Bool) (O : Str) (tr : List Event)
    (A : Str) (ps : List Str) (p : IP)
    (h1 : ParseIP A = some p) (h2 : isInternalIP p = .ok false) (h3 : ps.length ≤ 1000) :
    (∃ ev, invocations ev = [] ∧
      (loopBody ParseIP run O tr A ps).1 = tr ++ ev ++
        [.exec "nmap".toList ["-sV".toList, "-sS".toList, "-p".toList, Join ps comma,
          "-oX".toList, O ++ "/".toList ++ A ++ ".xml".toList, A]]) ∧
    invocations (main ParseIPv4Only (fun _ _ _ => true) "/tmp/out".toList "in.txt".toList true
        (some "203.0.113.5 -> [22,80,443]".toList) id).1 =
      [("nmap".toList, ["-sV".toList, "-sS".toList, "-p".toList, "22,80,443".toList,
        "-oX".toList, "/tmp/out/203.0.113.5.xml".toList, "203.0.113.5".toList])] := by
  refine ⟨⟨[.stdout (A ++ "\n".toList), .stdout (Join ps comma ++ "\n".toList),
    .stdout ("输出文件 outputFilePath: ".toList ++ (O ++ "/".toList ++ A ++ ".xml".toList))],
    rfl, ?_⟩, by decide⟩
  rw [loopBody_dispatch ParseIP run O tr A ps p h1 h2 h3]
  rfl

/-- C5, an instance of `loopBody_command`: two ports for 1.1.1.1, run into the
folder `out`. -/
theorem loopBody_command_witness :
    ∃ ev, invocations ev = [] ∧
      (loopBody ParseIPv4Only (fun _ _ _ => true) "out".toList [] "1.1.1.1".toList
          ["53".toList, "853".toList]).1 = [] ++ ev ++
        [.exec "nmap".toList ["-sV".toList, "-sS".toList, "-p".toList,
          Join ["53".toList, "853".toList] comma, "-oX".toList,
          "out".toList ++ "/".toList ++ "1.1.1.1".toList ++ ".xml".toList, "1.1.1.1".toList]] :=
  (loopBody_command ParseIPv4Only (fun _ _ _ => true) "out".toList [] "1.1.1.1".toList
    ["53".toList, "853".toList] (IPv4 1 1 1 1) (by decide) (by decide) (by decide)).1

/-- C7.  Take the mapping `parseFile` returned and any order in which `range`
visits its entries, and let every command of an entry succeed whenever it is
run.  Then `main` runs to its end: the last event is the completion message
and the process returns.  The commands run are those of the eligible entries
(address parses as an IP, not internal, at most 1000 ports), in the order of
the visit: the command of each eligible entry is run exactly once, that of any
other entry never, and nothing else is run.  An entry whose address does not
parse only adds a log line. -/
theorem main_dispatches (ParseIP : Str → Option IP)
    (run : List Event → Str → List Str → Bool) (outputFolderPath inputFilePath : Str)
    (file : Option Str) (m : PortMap) (order : PortMap → List (Str × List Str))
    (hin : inputFilePath ≠ []) (hout : outputFolderPath ≠ [])
    (hparse : parseFile file = .ok m) (hperm : (order m).Perm m)
    (hrun : ∀ t, ∀ e ∈ m, run t "nmap".toList (nmapArgs outputFolderPath e.1 e.2) = true) :
    (∃ tr, main ParseIP run outputFolderPath inputFilePath true file order =
        (tr ++ [.stdout "Scanning completed. Results appended to the output folder.\n".toList],
          .done) ∧
      invocations tr = ((order m).filter (eligible ParseIP)).map (nmapCmd outputFolderPath) ∧
      (∀ e ∈ m, times (nmapCmd outputFolderPath e) (invocations tr) =
        if eligible ParseIP e then 1 else 0) ∧
      (∀ c ∈ invocations tr, ∃ e ∈ m, eligible ParseIP e = true ∧ c = nmapCmd outputFolderPath e)) ∧
    (∀ t ip ports, ParseIP ip = none →
      loopBody ParseIP run outputFolderPath t ip ports =
        (t ++ [.log ("Invalid IP address: ".toList ++ ip ++ ", skipping".toList)], none)) := by
  refine ⟨?_, fun t ip ports h => loopBody_invalid ParseIP run outputFolderPath t ip ports h⟩
  obtain ⟨tr, h1, h2⟩ := rangeLoop_all_ok ParseIP run outputFolderPath (order m)
    [.mkdirAll outputFolderPath] (fun t e he => hrun t e (hperm.subset he))
  have hinv : invocations tr =
      ((order m).filter (eligible ParseIP)).map (nmapCmd outputFolderPath) := by
    rw [h2]; simp [invocations]
  refine ⟨tr, ?_, hinv, ?_, ?_⟩
  · rw [main_parsed ParseIP run outputFolderPath inputFilePath file m order hin hout hparse, h1]
  · intro e he
    rw [hinv]
    exact count_nmapCmd ParseIP outputFolderPath m (nodup_keys_of_parseFile file m hparse)
      (order m) hperm e he
  · intro c hc
    rw [hinv] at hc
    obtain ⟨e, he, rfl⟩ := List.mem_map.mp hc
    exact ⟨e, hperm.subset (List.mem_filter.mp he).1, (List.mem_filter.mp he).2, rfl⟩

/-- C7, an instance of `main_dispatches`: five entries, visited in the reverse
of the order of the mapping, of which two are eligible. -/
theorem main_dispatches_witness :
    ∃ tr, main ParseIPv4Only (fun _ _ _ => true) "out".toList "in.txt".toList true
        (some "8.8.8.8 -> [53]\n10.0.0.1 -> [22]\nlocalhost -> [80]\n1.1.1.1 -> [53,853]\n127.0.0.1 -> [1]".toList)
        List.reverse =
        (tr ++ [.stdout "Scanning completed. Results appended to the output folder.\n".toList],
          .done) ∧
      invocations tr = ((List.reverse
        [("127.0.0.1".toList, ["1".toList]), ("1.1.1.1".toList, ["53".toList, "853".toList]),
          ("localhost".toList, ["80".toList]), ("10.0.0.1".toList, ["22".toList]),
          ("8.8.8.8".toList, ["53".toList])]).filter (eligible ParseIPv4Only)).map
        (nmapCmd "out".toList) :=
  have h := (main_dispatches ParseIPv4Only (fun _ _ _ => true) "out".toList "in.txt".toList
    (some "8.8.8.8 -> [53]\n10.0.0.1 -> [22]\nlocalhost -> [80]\n1.1.1.1 -> [53,853]\n127.0.0.1 -> [1]".toList)
    [("127.0.0.1".toList, ["1".toList]), ("1.1.1.1".toList, ["53".toList, "853".toList]),
      ("localhost".toList, ["80".toList]), ("10.0.0.1".toList, ["22".toList]),
      ("8.8.8.8".toList, ["53".toList])]
    List.reverse (by decide) (by decide) (by decide) (List.reverse_perm _)
    (fun _ _ _ => rfl)).1
  Exists.elim h (fun tr htr => ⟨tr, htr.1, htr.2.1⟩)

/-- C8.  Let the order of the visit be `pre`, then the eligible entry
`ip, ports`, then `post`; let the commands of `pre` succeed and the command of
`ip, ports` fail.  Then `main` ends with the fatal exit, and its last event is
the failed command: no command of `post` is run and the completion message is
not reached.  Before it the commands of the eligible entries of `pre` were
run, and they stay run.  The failed command occurs once among the commands of
the run: it is not retried. -/
theorem main_aborts_on_failure (ParseIP : Str → Option IP)
    (run : List Event → Str → List Str → Bool) (outputFolderPath inputFilePath : Str)
    (file : Option Str) (m : PortMap) (order : PortMap → List (Str × List Str))
    (pre post : List (Str × List Str)) (ip : Str) (ports : List Str)
    (hin : inputFilePath ≠ []) (hout : outputFolderPath ≠ [])
    (hparse : parseFile file = .ok m) (hperm : (order m).Perm m)
    (horder : order m = pre ++ (ip, ports) :: post)
    (hel : eligible ParseIP (ip, ports) = true)
    (hpre : ∀ t, ∀ e ∈ pre, run t "nmap".toList (nmapArgs outputFolderPath e.1 e.2) = true)
    (hfail : ∀ t, run t "nmap".toList (nmapArgs outputFolderPath ip ports) = false) :
    ∃ tr text, main ParseIP run outputFolderPath inputFilePath true file order =
        (tr ++ [.exec "nmap".toList (nmapArgs outputFolderPath ip ports)],
          .fatal none text) ∧
      invocations tr = (pre.filter (eligible ParseIP)).map (nmapCmd outputFolderPath) ∧
      invocations (tr ++ [.exec "nmap".toList (nmapArgs outputFolderPath ip ports)]) =
        (pre.filter (eligible ParseIP)).map (nmapCmd outputFolderPath) ++
          [nmapCmd outputFolderPath (ip, ports)] ∧
      times (nmapCmd outputFolderPath (ip, ports))
        (invocations (tr ++ [.exec "nmap".toList (nmapArgs outputFolderPath ip ports)])) = 1 := by
  obtain ⟨tr, text, h1, h2⟩ := rangeLoop_fail ParseIP run outputFolderPath pre post ip ports
    [.mkdirAll outputFolderPath] hpre hel hfail
  have hinv : invocations tr = (pre.filter (eligible ParseIP)).map (nmapCmd outputFolderPath) := by
    rw [h2]; simp [invocations]
  have hall : invocations (tr ++ [.exec "nmap".toList (nmapArgs outputFolderPath ip ports)]) =
      (pre.filter (eligible ParseIP)).map (nmapCmd outputFolderPath) ++
        [nmapCmd outputFolderPath (ip, ports)] := by
    rw [invocations_append, hinv]
    rfl
  refine ⟨tr, text, ?_, hinv, hall, ?_⟩
  · rw [main_parsed ParseIP run outputFolderPath inputFilePath file m order hin hout hparse,
      horder, h1]
  · have hm := nodup_keys_of_parseFile file m hparse
    have hc := count_nmapCmd ParseIP outputFolderPath m hm (order m) hperm (ip, ports)
      (hperm.subset (by rw [horder]; simp))
    rw [if_pos hel, horder, List.filter_append, List.filter_cons_of_pos hel, List.map_append,
      List.map_cons, times_append] at hc
    rw [hall, times_append]
    have hone : times (nmapCmd outputFolderPath (ip, ports))
        [nmapCmd outputFolderPath (ip, ports)] = 1 := by simp [times]
    have hsplit : times (nmapCmd outputFolderPath (ip, ports))
        (nmapCmd outputFolderPath (ip, ports) ::
          List.map (nmapCmd outputFolderPath) (List.filter (eligible ParseIP) post)) =
        1 + times (nmapCmd outputFolderPath (ip, ports))
          (List.map (nmapCmd outputFolderPath) (List.filter (eligible ParseIP) post)) := by
      simp [times, Nat.add_comm]
    rw [hsplit] at hc
    rw [hone]
    omega

/-- C8, an instance of `main_aborts_on_failure`: three routable entries,
visited in file order, with a tool that fails on the second one only. -/
theorem main_aborts_on_failure_witness :
    ∃ tr text, main ParseIPv4Only
        (fun _ _ args => decide (args.getLast? ≠ some "1.1.1.1".toList))
        "out".toList "in.txt".toList true
        (some "8.8.8.8 -> [53]\n1.1.1.1 -> [53,853]\n9.9.9.9 -> [53]".toList) List.reverse =
        (tr ++ [.exec "nmap".toList (nmapArgs "out".toList "1.1.1.1".toList
          ["53".toList, "853".toList])], .fatal none text) ∧
      invocations tr = ([("8.8.8.8".toList, ["53".toList])].filter (eligible ParseIPv4Only)).map
        (nmapCmd "out".toList) :=
  have h := main_aborts_on_failure ParseIPv4Only
    (fun _ _ args => decide (args.getLast? ≠ some "1.1.1.1".toList))
    "out".toList "in.txt".toList
    (some "8.8.8.8 -> [53]\n1.1.1.1 -> [53,853]\n9.9.9.9 -> [53]".toList)
    [("9.9.9.9".toList, ["53".toList]), ("1.1.1.1".toList, ["53".toList, "853".toList]),
      ("8.8.8.8".toList, ["53".toList])]
    List.reverse [("8.8.8.8".toList, ["53".toList])] [("9.9.9.9".toList, ["53".toList])]
    "1.1.1.1".toList ["53".toList, "853".toList]
    (by decide) (by decide) (by decide) (List.reverse_perm _) (by decide) (by decide)
    (by intro t e he; rw [List.mem_singleton] at he; subst he; rfl)
    (by intro t; rfl)
  Exists.elim h (fun tr htr => Exists.elim htr (fun text ht => ⟨tr, text, ht.1, ht.2.1⟩))

theorem mem_of_get? (m : PortMap) (k : Str) (v : List Str) (h : m.get? k = some v) :
    (k, v) ∈ m := by
  unfold PortMap.get? at h
  cases hf : m.find? (fun e => decide (e.1 = k)) with
  | none => rw [hf] at h; cases h
  | some e =>
    rw [hf] at h
    have hk : e.1 = k := by simpa using List.find?_some hf
    have hv : e.2 = v := by simpa using h
    have := List.mem_of_find?_eq_some hf
    rw [← hk, ← hv]
    exact this

/-- C10.  Joining undoes splitting.  For every line that splits in two, the
ports the loop body of `parseFile` stores, joined with commas, are the
right-hand part with every leading and trailing bracket removed (the text
`BracketStripped` describes, which is unique).  And in a run of `main` on an
input that is parsed, for a line that is the last one of its address and
whose entry is eligible, with the commands of the entries succeeding: the
command run for the entry has that bracket-stripped text, character for
character, as its argument after `-p`, in `main` as a whole and in the loop
body started after any events. -/
theorem Join_linePorts (ParseIP : Str → Option IP)
    (run : List Event → Str → List Str → Bool) (O inputFilePath data : Str)
    (m : PortMap) (order : PortMap → List (Str × List Str))
    (pre post : List Str) (line : Str)
    (hin : inputFilePath ≠ []) (hout : O ≠ [])
    (hparse : parseFile (some data) = .ok m) (hperm : (order m).Perm m)
    (hrun : ∀ t, ∀ e ∈ m, run t "nmap".toList (nmapArgs O e.1 e.2) = true)
    (hline : fileLines data = pre ++ line :: post)
    (hlast : ∀ x ∈ post, lineAddr x ≠ lineAddr line)
    (hel : eligible ParseIP (lineAddr line, linePorts line) = true) :
    (∀ (m0 : PortMap) (l : Str), (Split l arrow).length = 2 →
      ∃ ports stripped, parseLine false m0 l = .ok (PortMap.set m0 (lineAddr l) ports) ∧
        BracketStripped ((Split l arrow).getD 1 []) stripped ∧
        (∀ t, BracketStripped ((Split l arrow).getD 1 []) t → t = stripped) ∧
        Join ports comma = stripped) ∧
    (Split line arrow).length = 2 ∧
    (∃ ports stripped, m.get? (lineAddr line) = some ports ∧
      BracketStripped ((Split line arrow).getD 1 []) stripped ∧
      (∀ t, BracketStripped ((Split line arrow).getD 1 []) t → t = stripped) ∧
      Join ports comma = stripped ∧
      ("nmap".toList, ["-sV".toList, "-sS".toList, "-p".toList, stripped, "-oX".toList,
          O ++ "/".toList ++ lineAddr line ++ ".xml".toList, lineAddr line]) ∈
        invocations (main ParseIP run O inputFilePath true (some data) order).1 ∧
      (∀ t, ∃ ev, invocations ev = [] ∧
        (loopBody ParseIP run O t (lineAddr line) ports).1 = t ++ ev ++
          [.exec "nmap".toList ["-sV".toList, "-sS".toList, "-p".toList, stripped,
            "-oX".toList, O ++ "/".toList ++ lineAddr line ++ ".xml".toList,
            lineAddr line]])) := by
  have hj : ∀ l : Str, Join (linePorts l) comma = Trim ((Split l arrow).getD 1 []) brackets :=
    fun l => Join_Split _ _ comma_ne_nil
  have huniq : ∀ l t : Str, BracketStripped ((Split l arrow).getD 1 []) t →
      t = Trim ((Split l arrow).getD 1 []) brackets :=
    fun l t ht => (BracketStripped_unique _ t ht).symm
  obtain ⟨_, hwf, hm⟩ := parseFile_ok data m hparse
  have hget : m.get? (lineAddr line) = some (linePorts line) := by
    rw [hm, hline]
    exact get?_assignAll_last pre post line [] hlast
  have hmem : (lineAddr line, linePorts line) ∈ m := mem_of_get? m _ _ hget
  refine ⟨?_, hwf line (by rw [hline]; simp), linePorts line,
    Trim ((Split line arrow).getD 1 []) brackets, hget, BracketStripped_Trim _,
    huniq line, hj line, ?_, ?_⟩
  · intro m0 l hl
    refine ⟨linePorts l, Trim ((Split l arrow).getD 1 []) brackets, ?_,
      BracketStripped_Trim _, huniq l, hj l⟩
    rw [parseLine_false, if_neg (by simpa using hl)]
  · obtain ⟨tr, h1, h2⟩ := rangeLoop_all_ok ParseIP run O (order m) [.mkdirAll O]
      (fun t e he => hrun t e (hperm.subset he))
    rw [main_parsed ParseIP run O inputFilePath (some data) m order hin hout hparse, h1]
    simp only
    rw [invocations_append, h2]
    apply List.mem_append_left
    apply List.mem_append_right
    refine List.mem_map.mpr ⟨(lineAddr line, linePorts line),
      List.mem_filter.mpr ⟨hperm.symm.subset hmem, hel⟩, ?_⟩
    simp only [nmapCmd, nmapArgs]
    rw [hj line]
  · intro t
    obtain ⟨p, h1, h2, h3⟩ := (eligible_iff ParseIP (lineAddr line) (linePorts line)).mp hel
    refine ⟨[.stdout (lineAddr line ++ "\n".toList),
      .stdout (Join (linePorts line) comma ++ "\n".toList),
      .stdout ("输出文件 outputFilePath: ".toList ++
        (O ++ "/".toList ++ lineAddr line ++ ".xml".toList))], rfl, ?_⟩
    rw [loopBody_dispatch ParseIP run O t (lineAddr line) (linePorts line) p h1 h2 h3]
    simp only [nmapArgs]
    rw [hj line]

/-- C10, an instance of `Join_linePorts`: a run of `main` on one line whose
right-hand part has doubled brackets and spaces around the ports. -/
theorem Join_linePorts_witness :
    ∃ ports stripped,
      PortMap.get? [("8.8.8.8".toList, [" 53".toList, " 443 ".toList, []])]
        (lineAddr "8.8.8.8 -> [[ 53, 443 ,]]".toList) = some ports ∧
      BracketStripped ((Split "8.8.8.8 -> [[ 53, 443 ,]]".toList arrow).getD 1 []) stripped ∧
      (∀ t, BracketStripped ((Split "8.8.8.8 -> [[ 53, 443 ,]]".toList arrow).getD 1 []) t →
        t = stripped) ∧
      Join ports comma = stripped ∧
      ("nmap".toList, ["-sV".toList, "-sS".toList, "-p".toList, stripped, "-oX".toList,
          "out".toList ++ "/".toList ++ lineAddr "8.8.8.8 -> [[ 53, 443 ,]]".toList ++
            ".xml".toList, lineAddr "8.8.8.8 -> [[ 53, 443 ,]]".toList]) ∈
        invocations (main ParseIPv4Only (fun _ _ _ => true) "out".toList "in.txt".toList true
          (some "8.8.8.8 -> [[ 53, 443 ,]]".toList) id).1 :=
  have h := (Join_linePorts ParseIPv4Only (fun _ _ _ => true) "out".toList "in.txt".toList
    "8.8.8.8 -> [[ 53, 443 ,]]".toList
    [("8.8.8.8".toList, [" 53".toList, " 443 ".toList, []])] id
    [] [] "8.8.8.8 -> [[ 53, 443 ,]]".toList
    (by decide) (by decide) (by decide) (List.Perm.refl _) (fun _ _ _ => rfl)
    (by decide) (by decide) (by decide)).2.2
  Exists.elim h (fun ports hp => Exists.elim hp (fun stripped hs =>
    ⟨ports, stripped, hs.1, hs.2.1, hs.2.2.1, hs.2.2.2.1, hs.2.2.2.2.1⟩))

end NmapX
